import Mathlib

/-!
Verification of `work_tracker.js` (personal attendance / overtime tracker).

Shallow embedding conventions:
* A JS "HH:MM" time literal is modelled by `Time` (hour and minute fields);
  `toMin` mirrors `toMin(t) = h * 60 + m`.  Minute arithmetic is on `ℤ`
  (all JS minute values in the program are exact small integers).
* JS floating-point numbers that arise from divisions (`workMin / 60`,
  `rawOTMin / 60`, `parseFloat` results) are modelled by `ℚ` with exact
  rational semantics.  Every numeric value the program manipulates is tiny
  and the claims under verification never depend on binary rounding of
  IEEE doubles, only on exact values such as 7.5 or multiples of 0.5.
* `NaN` (possible result of `parseFloat`) is modelled by `none` in
  `Option ℚ`; arithmetic and comparisons propagate it the way JS does
  (`NaN > 0` is false, `x + NaN` is `NaN`, `NaN.toFixed(1) = "NaN"`).
* Strings are modelled as `List Char` (`Str`); the document written by
  `writeToObsidian` is one `Str`, and reading splits it on `'\n'` exactly
  like `content.split('\n')`.
-/

namespace WorkTracker

/-- A character list; model of a JS string. -/
abbrev Str := List Char

/-- Model of an "HH:MM" literal: the two numeric fields produced by
`t.split(':').map(Number)`. -/
structure Time where
  h : ℕ
  m : ℕ
deriving DecidableEq, Repr

/-- `const toMin = (t) => { const [h, m] = t.split(':').map(Number); return h * 60 + m; }` -/
def toMin (t : Time) : ℤ := (t.h : ℤ) * 60 + (t.m : ℤ)

/-! Constants from the "配置区：规则" section of `work_tracker.js`. -/

/-- `const WORK_START = toMin('08:30')` -/
def WORK_START : ℤ := 510
/-- `const FLEX_DEADLINE = toMin('09:10')` -/
def FLEX_DEADLINE : ℤ := 550
/-- `const LATE_WARN = toMin('12:00')` (used only by the CLI layer) -/
def LATE_WARN : ℤ := 720
/-- `const LUNCH_START = toMin('11:30')` -/
def LUNCH_START : ℤ := 690
/-- `const LUNCH_END = toMin('13:00')` -/
def LUNCH_END : ℤ := 780
/-- `const LUNCH_DURATION = LUNCH_END - LUNCH_START` -/
def LUNCH_DURATION : ℤ := LUNCH_END - LUNCH_START
/-- `const REQUIRED_WORK = 450` -/
def REQUIRED_WORK : ℤ := 450
/-- `const OT_GAP = 30` -/
def OT_GAP : ℤ := 30
/-- `const OT_MIN_HOURS = 0.5` -/
def OT_MIN_HOURS : ℚ := 1/2
/-- `const OT_HINT_GAP = 15` -/
def OT_HINT_GAP : ℤ := 15

/-- `calcRequiredEnd(effStart)`: the clock-out minute needed for 7.5h of work. -/
def calcRequiredEnd (effStart : ℤ) : ℤ :=
  if effStart < LUNCH_START then
    effStart + REQUIRED_WORK + LUNCH_DURATION
  else if effStart ≥ LUNCH_END then
    effStart + REQUIRED_WORK
  else
    LUNCH_END + REQUIRED_WORK

/-- `const effStart = Math.max(inMin, WORK_START)` -/
def effStartM (inMin : ℤ) : ℤ := max inMin WORK_START

/-- `const lunchOverlap = Math.max(0, overlapEnd - overlapStart)` with
`overlapStart = Math.max(effStart, LUNCH_START)`, `overlapEnd = Math.min(outMin, LUNCH_END)`. -/
def lunchOverlapM (effStart outMin : ℤ) : ℤ :=
  max 0 (min outMin LUNCH_END - max effStart LUNCH_START)

/-- `const actualWorkMin = (outMin - effStart) - lunchOverlap` -/
def actualWorkMinM (inMin outMin : ℤ) : ℤ :=
  (outMin - effStartM inMin) - lunchOverlapM (effStartM inMin) outMin

/-- Decimal digits of a natural number, fuel-based recursion (the fuel is
structural so the kernel can evaluate it; `natToStr` supplies enough fuel). -/
def natToStrF : ℕ → ℕ → Str
  | 0, _ => []
  | fuel + 1, m =>
    if m < 10 then [Nat.digitChar m]
    else natToStrF fuel (m / 10) ++ [Nat.digitChar (m % 10)]

/-- Decimal digits of a natural number, as produced by JS template
interpolation `${n}` of a nonnegative integer. -/
def natToStr (n : ℕ) : Str := natToStrF (n + 1) n

/-- JS interpolation `${i}` of an integer-valued number. -/
def intToStr (i : ℤ) : Str :=
  if i < 0 then '-' :: natToStr i.natAbs else natToStr i.toNat

/-- `String(n).padStart(2, '0')` for the small numbers used in times. -/
def pad2 (n : ℕ) : Str := if n < 10 then '0' :: natToStr n else natToStr n

/-- The "HH:MM" text of a `Time`.  The callers of `calcWorktime` only pass
strings already matching `/^\d{2}:\d{2}$/` (checked by `isValidTime`), for
which the original string and this rendering coincide. -/
def fmtTime (t : Time) : Str := pad2 t.h ++ ':' :: pad2 t.m

/-- `` `⚠️  迟到！打卡时间 ${clockIn} 超过弹性截止 09:10` `` -/
def lateNote (clockIn : Str) : Str :=
  "⚠️  迟到！打卡时间 ".toList ++ clockIn ++ " 超过弹性截止 09:10".toList

/-- `` `⚠️  工作时长不足 7.5h，还差 ${Math.ceil(deficit)} 分钟` ``.
`deficit` is an exact integer in JS (a difference of minute counts), so
`Math.ceil` is the identity on it. -/
def deficitNote (deficit : ℤ) : Str :=
  "⚠️  工作时长不足 7.5h，还差 ".toList ++ intToStr deficit ++ " 分钟".toList

/-- `Number.prototype.toFixed(1)` under exact rational semantics: the
integer `n` nearest to `10 * q` (ties toward the larger `n`, as specified
for `toFixed`), printed with one decimal digit. -/
def toFixed1 (q : ℚ) : Str :=
  let n : ℤ := ⌊10 * q + 1/2⌋
  if n < 0 then '-' :: natToStr ((-n).toNat / 10) ++ '.' :: [Nat.digitChar ((-n).toNat % 10)]
  else natToStr (n.toNat / 10) ++ '.' :: [Nat.digitChar (n.toNat % 10)]

/-- `` `💡 再待 ${gap} 分钟可凑满 ${nextOTHours}h 加班` `` -/
def hintMore (gap nextHalfHour : ℤ) : Str :=
  "💡 再待 ".toList ++ intToStr gap ++ " 分钟可凑满 ".toList ++
    toFixed1 ((nextHalfHour : ℚ) / 60) ++ "h 加班".toList

/-- `` `💡 再待 ${gap} 分钟开始计算 0.5h 加班` `` -/
def hintSoon (gap : ℤ) : Str :=
  "💡 再待 ".toList ++ intToStr gap ++ " 分钟开始计算 0.5h 加班".toList

/-- The object returned by `calcWorktime`. -/
structure WtResult where
  workHours : ℚ
  overtimeHours : ℚ
  isLate : Bool
  notes : List Str
  hint : Str
deriving DecidableEq, Repr

/-- `const workMin = Math.min(Math.max(actualWorkMin, 0), REQUIRED_WORK)` -/
def workMinM (inMin outMin : ℤ) : ℤ :=
  min (max (actualWorkMinM inMin outMin) 0) REQUIRED_WORK

/-- `const workHours = workMin / 60` -/
def workHoursM (inMin outMin : ℤ) : ℚ := ((workMinM inMin outMin : ℤ) : ℚ) / 60

/-- `const otThreshold = requiredEnd + OT_GAP` with `requiredEnd = calcRequiredEnd(effStart)`. -/
def otThresholdM (inMin : ℤ) : ℤ := calcRequiredEnd (effStartM inMin) + OT_GAP

/-- The `overtimeHours` computed by `calcWorktime`: inside `if (outMin > otThreshold)`,
`rawOTMin = outMin - otThreshold`, `rawOTHours = rawOTMin / 60`, and
`if (rawOTHours >= OT_MIN_HOURS) overtimeHours = Math.floor(rawOTHours * 2) / 2`. -/
def overtimeM (inMin outMin : ℤ) : ℚ :=
  if outMin > otThresholdM inMin then
    if ((outMin - otThresholdM inMin : ℤ) : ℚ) / 60 ≥ OT_MIN_HOURS then
      ((⌊(((outMin - otThresholdM inMin : ℤ) : ℚ) / 60) * 2⌋ : ℤ) : ℚ) / 2
    else 0
  else 0

/-- The `notes` array built by `calcWorktime`: a lateness note pushed when
`effStart > FLEX_DEADLINE`, then a deficit note pushed when
`actualWorkMin < REQUIRED_WORK`. -/
def notesM (tin tout : Time) : List Str :=
  (if effStartM (toMin tin) > FLEX_DEADLINE then [lateNote (fmtTime tin)] else []) ++
    (if actualWorkMinM (toMin tin) (toMin tout) < REQUIRED_WORK then
      [deficitNote (REQUIRED_WORK - actualWorkMinM (toMin tin) (toMin tout))] else [])

/-- The `hint` string of `calcWorktime`: `nextHalfHour = Math.ceil(rawOTMin / 30) * 30`
past the threshold, `gap = otThreshold - outMin` before it; shown when
`0 < gap && gap <= OT_HINT_GAP`. -/
def hintM (inMin outMin : ℤ) : Str :=
  if outMin > otThresholdM inMin then
    let rawOTMin := outMin - otThresholdM inMin
    let nextHalfHour : ℤ := ⌈(rawOTMin : ℚ) / 30⌉ * 30
    let gap := nextHalfHour - rawOTMin
    if 0 < gap ∧ gap ≤ OT_HINT_GAP then hintMore gap nextHalfHour else []
  else
    let gap := otThresholdM inMin - outMin
    if 0 < gap ∧ gap ≤ OT_HINT_GAP then hintSoon gap else []

/-- `calcWorktime(clockIn, clockOut)`, assembled from the component
definitions above (each models the correspondingly named local of the
source function). -/
def calcWorktime (tin tout : Time) : WtResult :=
  { workHours := workHoursM (toMin tin) (toMin tout)
    overtimeHours := overtimeM (toMin tin) (toMin tout)
    isLate := decide (effStartM (toMin tin) > FLEX_DEADLINE)
    notes := notesM tin tout
    hint := hintM (toMin tin) (toMin tout) }

/-!
### Ledger model (`writeToObsidian`)

JS numbers flowing through the ledger are exact decimal-ish fractions
(`parseFloat` results and the calculator's `workMin / 60` values).  They are
modelled as unreduced fractions `JSN` (numerator/denominator) with a positive
denominator by construction, so that every ledger operation evaluates inside
the kernel; `NaN` (a possible `parseFloat` result) is `none` at the
`Option JSN` layer, with JS semantics `NaN > 0 = false`, `x + NaN = NaN`,
`NaN.toFixed(1) = "NaN"`.
-/

/-- An exact JS number of the ledger path: the fraction `num / den`.
Every constructor used in the model yields `den > 0`. -/
structure JSN where
  num : ℤ
  den : ℕ
deriving DecidableEq, Repr

/-- The JS integer literal `0` (initial value of the totals). -/
def JSN.ofInt (i : ℤ) : JSN := ⟨i, 1⟩

/-- The rational value of a stored number, for specification statements. -/
def JSN.val (a : JSN) : ℚ := (a.num : ℚ) / (a.den : ℚ)

/-- JS `x + y` on exact fractions. -/
def JSN.add (a b : JSN) : JSN := ⟨a.num * b.den + b.num * a.den, a.den * b.den⟩

/-- JS `x > 0` (used for the `🔥` marker); for `den > 0` this is `0 < num`. -/
def JSN.pos (a : JSN) : Bool := decide (0 < a.num)

/-- `Number.prototype.toFixed(1)` on an exact fraction with positive
denominator: the integer nearest to `10 * val` (ties toward the larger
integer) is `⌊10 * val + 1/2⌋ = (20 * num + den).ediv (2 * den)`; it is
printed with exactly one decimal digit. -/
def JSN.toFixed1 (a : JSN) : Str :=
  let n : ℤ := (20 * a.num + (a.den : ℤ)).ediv (2 * (a.den : ℤ))
  if n < 0 then '-' :: (natToStr ((-n).toNat / 10) ++ '.' :: [Nat.digitChar ((-n).toNat % 10)])
  else natToStr (n.toNat / 10) ++ '.' :: [Nat.digitChar (n.toNat % 10)]

/-- The calculator's hour values (`result.workHours`, `result.overtimeHours`)
as stored numbers. -/
def ratToJSN (q : ℚ) : JSN := ⟨q.num, q.den⟩

/-- JS `+` with `NaN` propagation. -/
def jadd : Option JSN → Option JSN → Option JSN
  | some a, some b => some (a.add b)
  | _, _ => none

/-- JS `> 0` (`NaN > 0` is `false`). -/
def jpos : Option JSN → Bool
  | some a => a.pos
  | none => false

/-- JS `.toFixed(1)` (`NaN.toFixed(1)` is `"NaN"`). -/
def jfix1 : Option JSN → Str
  | some a => a.toFixed1
  | none => "NaN".toList

/-- JS regex `\s` restricted to the characters that occur in this program's
documents (rendered documents only ever contain the plain space). -/
def wsp (c : Char) : Bool := c == ' ' || c == '\t' || c == '\n' || c == '\r' || c == '\x0b' || c == '\x0c'

/-- JS regex `[\d.]`. -/
def digitDot (c : Char) : Bool := c.isDigit || c == '.'

/-- `String.prototype.trim()` (on the same whitespace set as `wsp`). -/
def trimS (s : Str) : Str := ((s.dropWhile wsp).reverse.dropWhile wsp).reverse

/-- Read exactly `n` decimal digits (regex `\d{n}`). -/
def readDigits : ℕ → Str → Option (Str × Str)
  | 0, s => some ([], s)
  | _ + 1, [] => none
  | n + 1, c :: s =>
    if c.isDigit then (readDigits n s).map (fun p => (c :: p.1, p.2)) else none

/-- Require a literal `|` at the head. -/
def expectBar : Str → Option Str
  | c :: r => if c = '|' then some r else none
  | [] => none

/-- Require a literal `-` at the head. -/
def expectDash : Str → Option Str
  | c :: r => if c = '-' then some r else none
  | [] => none

/-- Regex `(\d{4}-\d{2}-\d{2})`: the captured date and the rest.  (The
quantifiers are exact counts, so this part of the row pattern is
deterministic.) -/
def readDate (s : Str) : Option (Str × Str) :=
  (readDigits 4 s).bind (fun p1 =>
    (expectDash p1.2).bind (fun s2 =>
      (readDigits 2 s2).bind (fun p2 =>
        (expectDash p2.2).bind (fun s4 =>
          (readDigits 2 s4).map (fun p3 =>
            (p1.1 ++ '-' :: p2.1 ++ '-' :: p3.1, p3.2))))))

/-- Regex `\s*\|`: `\s` never matches `|`, so the maximal whitespace run is
the only viable choice. -/
def barAfterWs (s : Str) : Option Str := expectBar (s.dropWhile wsp)

/-- All nonempty prefixes of the leading non-whitespace run of `s`, shortest
first, each paired with the corresponding remainder. -/
def splitsAsc (acc : Str) : Str → List (Str × Str)
  | [] => []
  | c :: t => if wsp c then [] else (acc ++ [c], t) :: splitsAsc (acc ++ [c]) t

/-- Regex `\s*(\S+)\s*\|` with backtracking: candidate (capture, rest after
the bar) pairs in the regex engine's preference order — the greedy `\S+`
tries the longest capture first, and for each capture the following
`\s*\|` is deterministic.  `\S` can match `|`, so shorter captures stopping
at an embedded `|` are genuine alternatives. -/
def tokenCands (s : Str) : List (Str × Str) :=
  ((splitsAsc [] (s.dropWhile wsp)).reverse).filterMap
    (fun p => (barAfterWs p.2).map (fun r => (p.1, r)))

/-- Regex `\s*([\d.]+)\s*\|`: deterministic — stopping the greedy `[\d.]+`
before the end of the maximal run leaves a `[\d.]` character where `\s*\|`
must match, which fails immediately, so only the maximal capture is viable. -/
def numField (s : Str) : Option (Str × Str) :=
  let s1 := s.dropWhile wsp
  let cap := s1.takeWhile digitDot
  if cap = [] then none
  else (barAfterWs (s1.dropWhile digitDot)).map (fun r => (cap, r))

/-- Regex `\s*([\d.]+)[^|]*\|`: the greedy `[\d.]+` prefers the maximal run,
and whatever split is chosen `[^|]*` always extends to the first `|`, so the
remainder (and hence overall success) is independent of the split and the
preferred maximal capture is taken. -/
def numFieldMark (s : Str) : Option (Str × Str) :=
  let s1 := s.dropWhile wsp
  let cap := s1.takeWhile digitDot
  if cap = [] then none
  else
    (expectBar ((s1.dropWhile digitDot).dropWhile (fun c => !(c == '|')))).map
      (fun r => (cap, r))

/-- Regex `\s*(.*?)\s*\|$` followed by the source's `.trim()` of the capture:
the pattern matches exactly when the remaining text ends with `|`, the lazy
`(.*?)` between the two greedy `\s*` runs captures the text before that final
`|` with surrounding whitespace stripped, and the extra `.trim()` makes the
combined effect `trim` of everything before the final `|`. -/
def noteField (s : Str) : Option Str :=
  (expectBar s.reverse).map (fun r => trimS r.reverse)

/-- `digits.foldl` value of a digit string (the integer part or fraction
digits consumed by `parseFloat`). -/
def digitsToNat (s : Str) : ℕ := s.foldl (fun n c => 10 * n + (c.toNat - '0'.toNat)) 0

/-- JS `parseFloat` restricted to the strings matched by `[\d.]+` (only
digits and dots, nonempty): the longest numeric prefix `\d*(\.\d*)?` is
taken; if it contains no digit at all the result is `NaN` (`none`). -/
def parseFloatDD (s : Str) : Option JSN :=
  let ip := s.takeWhile Char.isDigit
  let rest := s.dropWhile Char.isDigit
  match rest with
  | '.' :: r =>
    let fp := r.takeWhile Char.isDigit
    if ip = [] ∧ fp = [] then none
    else some ⟨(digitsToNat ip : ℤ) * ((10 ^ fp.length : ℕ) : ℤ) + (digitsToNat fp : ℤ),
               10 ^ fp.length⟩
  | _ => if ip = [] then none else some ⟨(digitsToNat ip : ℤ), 1⟩

/-- One parsed/stored ledger record (an entry of the `records` map; the map
key is always its `date` field). -/
structure Rec where
  date : Str
  inTime : Str
  outTime : Str
  work : Option JSN
  ot : Option JSN
  note : Str
deriving DecidableEq, Repr

/-- The row regex of `writeToObsidian`:
`/^\|\s*(\d{4}-\d{2}-\d{2})\s*\|\s*(\S+)\s*\|\s*(\S+)\s*\|\s*([\d.]+)\s*\|\s*([\d.]+)[^|]*\|\s*(.*?)\s*\|$/`
together with the construction of the record from the match (`parseFloat` on
groups 4 and 5, `.trim()` on group 6). -/
def parseRow (line : Str) : Option Rec :=
  match line with
  | '|' :: s1 =>
    (readDate (s1.dropWhile wsp)).bind (fun d =>
      (barAfterWs d.2).bind (fun s3 =>
        (tokenCands s3).findSome? (fun p1 =>
          (tokenCands p1.2).findSome? (fun p2 =>
            (numField p2.2).bind (fun w =>
              (numFieldMark w.2).bind (fun o =>
                (noteField o.2).map (fun note =>
                  ⟨d.1, p1.1, p2.1, parseFloatDD w.1, parseFloatDD o.1, note⟩)))))))
  | _ => none

/-- `records.set(r.date, r)` on an insertion-ordered map: replace in place
if the key is present, else append. -/
def setRec (m : List Rec) (v : Rec) : List Rec :=
  if m.any (fun r => decide (r.date = v.date)) then
    m.map (fun r => if r.date = v.date then v else r)
  else m ++ [v]

/-- One iteration of the parse loop: a line that matches the row pattern is
upserted into the map, any other line is ignored. -/
def parseStep (m : List Rec) (line : Str) : List Rec :=
  match parseRow line with
  | some r => setRec m r
  | none => m

/-- The parse loop of `writeToObsidian`: fold the row parser over the lines
of the existing document, keeping the last record for each date. -/
def parseRecords (lines : List Str) : List Rec :=
  lines.foldl parseStep []

/-- `a.date.localeCompare(b.date) <= 0` as used by the sort comparator; on
the date-shaped keys (ASCII digits and hyphens) locale collation coincides
with code-point order. -/
def lexLe : Str → Str → Bool
  | [], _ => true
  | _ :: _, [] => false
  | a :: x, b :: y => if a < b then true else if b < a then false else lexLe x y

/-- Strict version of `lexLe` (strictly ascending dates). -/
def lexLt : Str → Str → Bool
  | _, [] => false
  | [], _ :: _ => true
  | a :: x, b :: y => if a < b then true else if b < a then false else lexLt x y

/-- `[...records.values()].sort((a, b) => a.date.localeCompare(b.date))`:
since the map keys (dates) are pairwise distinct, the sorted result is the
unique date-ordered arrangement, which any sorting algorithm produces;
insertion sort is used here. -/
def insertByDate (r : Rec) : List Rec → List Rec
  | [] => [r]
  | x :: xs => if lexLe r.date x.date then r :: x :: xs else x :: insertByDate r xs

/-- See `insertByDate`. -/
def sortByDate (l : List Rec) : List Rec := l.foldr insertByDate []

/-- `n.replace(/\|/g, '／')` applied characterwise. -/
def escPipe (c : Char) : Char := if c = '|' then '／' else c

/-- `result.notes.length > 0 ? result.notes.map(n => n.replace(/\|/g, '／')).join('; ') : ''` -/
def noteTextOf (notes : List Str) : Str :=
  if notes = [] then [] else List.intercalate "; ".toList (notes.map (List.map escPipe))

/-- The record inserted for the current day:
`{ date: dateStr, inTime: clockIn, outTime: clockOut, work: result.workHours, ot: result.overtimeHours, note: noteText }`. -/
def mkRec (dateStr clockIn clockOut : Str) (result : WtResult) : Rec :=
  ⟨dateStr, clockIn, clockOut, some (ratToJSN result.workHours),
    some (ratToJSN result.overtimeHours), noteTextOf result.notes⟩

/-- `'| 日期 | 上班 | 下班 | 工时 | 加班 | 备注 |'` -/
def headerLine : Str := "| 日期 | 上班 | 下班 | 工时 | 加班 | 备注 |".toList

/-- `'| :---: | :---: | :---: | :---: | :---: | :--- |'` -/
def sepLine : Str := "| :---: | :---: | :---: | :---: | :---: | :--- |".toList

/-- `` `| ${r.date} | ${r.inTime} | ${r.outTime} | ${r.work.toFixed(1)} | ${r.ot.toFixed(1)}${otMark} | ${r.note} |` ``
with `otMark = r.ot > 0 ? ' 🔥' : ''`. -/
def renderRow (r : Rec) : Str :=
  "| ".toList ++ r.date ++ " | ".toList ++ r.inTime ++ " | ".toList ++ r.outTime ++
    " | ".toList ++ jfix1 r.work ++ " | ".toList ++ jfix1 r.ot ++
    (if jpos r.ot then " 🔥".toList else []) ++ " | ".toList ++ r.note ++ " |".toList

/-- `totalWork` accumulated over the sorted records. -/
def totalWorkOf (l : List Rec) : Option JSN :=
  l.foldl (fun t r => jadd t r.work) (some (JSN.ofInt 0))

/-- `totalOT` accumulated over the sorted records. -/
def totalOTOf (l : List Rec) : Option JSN :=
  l.foldl (fun t r => jadd t r.ot) (some (JSN.ofInt 0))

/-- Whether `pat` occurs at the start of `s`. -/
def startsWithS : Str → Str → Bool
  | [], _ => true
  | _ :: _, [] => false
  | a :: x, b :: y => a == b && startsWithS x y

/-- `s.includes(pat)`: whether `pat` occurs contiguously in `s`. -/
def containsSub (pat : Str) : Str → Bool
  | [] => pat.isEmpty
  | c :: t => startsWithS pat (c :: t) || containsSub pat t

/-- `r.note.includes('迟到')`. -/
def hasLate (s : Str) : Bool := containsSub "迟到".toList s

/-- `lateDays` counted over the sorted records. -/
def lateDaysOf (l : List Rec) : ℕ := (l.filter (fun r => hasLate r.note)).length

/-- `` `> **出勤 ${n} 天 ｜ 工时 ${totalWork.toFixed(1)}h ｜ 加班 ${totalOT.toFixed(1)}h**${lateDays > 0 ? ` ｜ 迟到 ${lateDays} 次` : ''}` `` -/
def summaryLine (l : List Rec) : Str :=
  "> **出勤 ".toList ++ natToStr l.length ++ " 天 ｜ 工时 ".toList ++ jfix1 (totalWorkOf l) ++
    "h ｜ 加班 ".toList ++ jfix1 (totalOTOf l) ++ "h**".toList ++
    (if 0 < lateDaysOf l then " ｜ 迟到 ".toList ++ natToStr (lateDaysOf l) ++ " 次".toList
     else [])

/-- The full list of lines pushed by `writeToObsidian`: title, blank, header,
separator, one row per sorted record, blank, `---`, blank, summary, blank. -/
def renderLines (month : Str) (sorted : List Rec) : List Str :=
  ("# ".toList ++ month ++ " 加班记录".toList) :: [] :: headerLine :: sepLine ::
    (sorted.map renderRow ++ ([] :: "---".toList :: [] :: summaryLine sorted :: [[]]))

/-- `lines.join('\n')`. -/
def joinNl (lines : List Str) : Str := List.intercalate ['\n'] lines

/-- `content.split('\n')`. -/
def splitNl : Str → List Str
  | [] => [[]]
  | c :: t =>
    match splitNl t with
    | [] => [[c]]
    | h :: r => if c = '\n' then [] :: h :: r else (c :: h) :: r

/-- The lines read from the store: `fs.existsSync(filePath)` guards the read,
an absent file contributes no records. -/
def priorLines : Option Str → List Str
  | none => []
  | some s => splitNl s

/-- The record map after parsing the prior document and upserting the day's
record. -/
def mergedRecs (prior : Option Str) (dateStr clockIn clockOut : Str) (result : WtResult) :
    List Rec :=
  setRec (parseRecords (priorLines prior)) (mkRec dateStr clockIn clockOut result)

/-- The `sorted` array of `writeToObsidian`. -/
def mergedSorted (prior : Option Str) (dateStr clockIn clockOut : Str) (result : WtResult) :
    List Rec :=
  sortByDate (mergedRecs prior dateStr clockIn clockOut result)

/-- `writeToObsidian(dateStr, clockIn, clockOut, result)` as a function from
the prior per-month document (if any) to the document written back;
`month = dateStr.slice(0, 7)`. -/
def writeToObsidian (prior : Option Str) (dateStr clockIn clockOut : Str) (result : WtResult) :
    Str :=
  joinNl (renderLines (dateStr.take 7) (mergedSorted prior dateStr clockIn clockOut result))

/-!
### Well-formedness predicates

These capture the shapes that the CLI layer guarantees for the upsert
arguments (`isValidDate` / `isValidTime` checks) and the shapes the row
parser itself produces; the ledger theorems are stated with them.
-/

/-- The string is exactly one `\d{4}-\d{2}-\d{2}` date (what `isValidDate`
accepts up to calendar validity, and what the row regex captures). -/
def dateShaped (s : Str) : Prop := readDate s = some (s, [])

instance (s : Str) : Decidable (dateShaped s) := by unfold dateShaped; infer_instance

/-- A nonempty whitespace-free token (what `\S+` captures; the validated
"HH:MM" clock strings are of this shape). -/
def tokenOk (s : Str) : Prop := s ≠ [] ∧ ∀ c ∈ s, wsp c = false

instance (s : Str) : Decidable (tokenOk s) := by unfold tokenOk; infer_instance

/-- A stored number that is an actual number (not `NaN`) with nonnegative
numerator. -/
def numNN : Option JSN → Prop
  | some a => 0 ≤ a.num
  | none => False

instance : (w : Option JSN) → Decidable (numNN w)
  | some a => inferInstanceAs (Decidable (0 ≤ a.num))
  | none => inferInstanceAs (Decidable False)

/-- A stored number carrying exactly one decimal digit, the shape
`writeToObsidian` itself writes (`x.toFixed(1)`) and re-parses losslessly. -/
def oneDec : Option JSN → Prop
  | some a => 0 ≤ a.num ∧ a.den = 10
  | none => False

instance : (w : Option JSN) → Decidable (oneDec w)
  | some a => inferInstanceAs (Decidable (0 ≤ a.num ∧ a.den = 10))
  | none => inferInstanceAs (Decidable False)

/-- Well-formed record: the shape of records produced by the row parser
from a tool-written document, and of the day record built from validated
CLI arguments and a `calcWorktime` result. -/
def recWF (r : Rec) : Prop :=
  dateShaped r.date ∧ tokenOk r.inTime ∧ tokenOk r.outTime ∧
    oneDec r.work ∧ oneDec r.ot ∧ trimS r.note = r.note ∧ '\n' ∉ r.note

instance (r : Rec) : Decidable (recWF r) := by unfold recWF; infer_instance

/-- The record the row parser recovers from a rendered row: date and clock
strings come back verbatim, the numbers as `parseFloat` of their
`toFixed(1)` rendering, the note trimmed. -/
def reparseRec (r : Rec) : Rec :=
  ⟨r.date, r.inTime, r.outTime, parseFloatDD (jfix1 r.work), parseFloatDD (jfix1 r.ot),
    trimS r.note⟩

@[simp] theorem calcWorktime_workHours (tin tout : Time) :
    (calcWorktime tin tout).workHours = workHoursM (toMin tin) (toMin tout) := rfl

@[simp] theorem calcWorktime_overtimeHours (tin tout : Time) :
    (calcWorktime tin tout).overtimeHours = overtimeM (toMin tin) (toMin tout) := rfl

@[simp] theorem calcWorktime_notes (tin tout : Time) :
    (calcWorktime tin tout).notes = notesM tin tout := rfl

/-- C1: for every pair of clock-in and clock-out times, `calcWorktime`
returns `workedHours` in the closed interval `[0, 7.5]` and an
`overtimeHours` that is a non-negative multiple of `0.5`. -/
theorem calcWorktime_hours_bounds (tin tout : Time) :
    0 ≤ (calcWorktime tin tout).workHours ∧
    (calcWorktime tin tout).workHours ≤ 15/2 ∧
    ∃ k : ℕ, (calcWorktime tin tout).overtimeHours = (k : ℚ) / 2 := by
  refine ⟨?_, ?_, ?_⟩
  · rw [calcWorktime_workHours, workHoursM]
    have h : (0 : ℤ) ≤ workMinM (toMin tin) (toMin tout) := by
      unfold workMinM REQUIRED_WORK
      omega
    have h' : (0 : ℚ) ≤ ((workMinM (toMin tin) (toMin tout) : ℤ) : ℚ) := by exact_mod_cast h
    linarith
  · rw [calcWorktime_workHours, workHoursM]
    have h : workMinM (toMin tin) (toMin tout) ≤ 450 := by
      unfold workMinM REQUIRED_WORK
      omega
    have h' : ((workMinM (toMin tin) (toMin tout) : ℤ) : ℚ) ≤ 450 := by exact_mod_cast h
    linarith
  · rw [calcWorktime_overtimeHours, overtimeM]
    split
    case isTrue hgt =>
      split
      case isTrue hge =>
        have harg : (0 : ℚ) ≤ ((toMin tout - otThresholdM (toMin tin) : ℤ) : ℚ) / 60 * 2 := by
          have h1 : (0 : ℤ) ≤ toMin tout - otThresholdM (toMin tin) := by omega
          have h2 : (0 : ℚ) ≤ ((toMin tout - otThresholdM (toMin tin) : ℤ) : ℚ) := by
            exact_mod_cast h1
          linarith
        have hf : 0 ≤ ⌊((toMin tout - otThresholdM (toMin tin) : ℤ) : ℚ) / 60 * 2⌋ :=
          Int.floor_nonneg.mpr harg
        refine ⟨(⌊((toMin tout - otThresholdM (toMin tin) : ℤ) : ℚ) / 60 * 2⌋).toNat, ?_⟩
        have hc : ((⌊((toMin tout - otThresholdM (toMin tin) : ℤ) : ℚ) / 60 * 2⌋.toNat : ℕ) : ℚ)
            = ((⌊((toMin tout - otThresholdM (toMin tin) : ℤ) : ℚ) / 60 * 2⌋ : ℤ) : ℚ) := by
          exact_mod_cast congrArg (fun z : ℤ => (z : ℚ)) (Int.toNat_of_nonneg hf)
        rw [hc]
      case isFalse _ => exact ⟨0, by norm_num⟩
    case isFalse _ => exact ⟨0, by norm_num⟩

/-- Evaluation of the overtime of the 08:05 → 19:37 scenario: the threshold
is minute 1080 (18:00), so `rawOTMin = 97` and the overtime floors to 1.5h. -/
theorem overtimeM_eval_0805_1937 : overtimeM (toMin ⟨8, 5⟩) (toMin ⟨19, 37⟩) = 3/2 := by
  have hthr : otThresholdM (toMin ⟨8, 5⟩) = 1080 := by decide
  have hout : toMin (⟨19, 37⟩ : Time) = 1177 := by decide
  rw [overtimeM, hthr, hout]
  rw [if_pos (by norm_num)]
  have h97 : ((1177 - 1080 : ℤ) : ℚ) = 97 := by norm_num
  rw [h97]
  rw [if_pos (by rw [OT_MIN_HOURS]; norm_num)]
  have hfl : ⌊(97 : ℚ) / 60 * 2⌋ = 3 := by
    have : (97 : ℚ) / 60 * 2 = 97/30 := by ring
    rw [this, Int.floor_eq_iff]
    norm_num
  rw [hfl]
  norm_num

/-- C2 counterexample: on `clockIn = 08:05`, `clockOut = 19:37` the code does
NOT return `overtimeHours = 0.5`, and the intermediate `requiredEnd` is not
`18:30` (= minute 1110): `08:30 + 450min + 90min` is `17:30`, not `18:30`. -/
theorem calcWorktime_claim2_cex :
    calcRequiredEnd (effStartM (toMin ⟨8, 5⟩)) ≠ 1110 ∧
    (calcWorktime ⟨8, 5⟩ ⟨19, 37⟩).overtimeHours ≠ 1/2 := by
  constructor
  · decide
  · rw [calcWorktime_overtimeHours, overtimeM_eval_0805_1937]
    norm_num

/-- C2 amended: for `clockIn = 08:05`, `clockOut = 19:37`, `calcWorktime`
returns `workedHours = 7.5` and `overtimeHours = 1.5`, with `effectiveStart`
clamped to `08:30` (minute 510), `requiredEnd = 17:30` (minute 1050) and
`overtimeThreshold = 18:00` (minute 1080) as intermediate values. -/
theorem calcWorktime_claim2_amended :
    effStartM (toMin ⟨8, 5⟩) = 510 ∧
    calcRequiredEnd (effStartM (toMin ⟨8, 5⟩)) = 1050 ∧
    otThresholdM (toMin ⟨8, 5⟩) = 1080 ∧
    (calcWorktime ⟨8, 5⟩ ⟨19, 37⟩).workHours = 15/2 ∧
    (calcWorktime ⟨8, 5⟩ ⟨19, 37⟩).overtimeHours = 3/2 := by
  refine ⟨by decide, by decide, by decide, ?_, ?_⟩
  · rw [calcWorktime_workHours, workHoursM]
    have hw : workMinM (toMin ⟨8, 5⟩) (toMin ⟨19, 37⟩) = 450 := by decide
    rw [hw]
    norm_num
  · rw [calcWorktime_overtimeHours, overtimeM_eval_0805_1937]

/-- C3: `calcRequiredEnd` computes the required clock-out time by exactly
three cases: before the lunch window, `effectiveStart + 450 + 90`; from lunch
end onwards, `effectiveStart + 450`; inside the lunch window,
`lunchEnd + 450`. -/
theorem calcRequiredEnd_cases (e : ℤ) :
    (e < LUNCH_START → calcRequiredEnd e = e + 450 + 90) ∧
    (LUNCH_END ≤ e → calcRequiredEnd e = e + 450) ∧
    (LUNCH_START ≤ e → e < LUNCH_END → calcRequiredEnd e = LUNCH_END + 450) := by
  refine ⟨fun h => ?_, fun h => ?_, fun h h2 => ?_⟩ <;>
    simp only [calcRequiredEnd, LUNCH_START, LUNCH_END, LUNCH_DURATION, REQUIRED_WORK] at * <;>
    split_ifs <;> omega

/-- Witness for C3: the three cases evaluated at 10:00, 13:20 and 11:40. -/
theorem calcRequiredEnd_cases_witness :
    ((600 : ℤ) < LUNCH_START ∧ calcRequiredEnd 600 = 600 + 450 + 90) ∧
    (LUNCH_END ≤ (800 : ℤ) ∧ calcRequiredEnd 800 = 800 + 450) ∧
    (LUNCH_START ≤ (700 : ℤ) ∧ 700 < LUNCH_END ∧ calcRequiredEnd 700 = LUNCH_END + 450) :=
  ⟨⟨by decide, (calcRequiredEnd_cases 600).1 (by decide)⟩,
   ⟨by decide, (calcRequiredEnd_cases 800).2.1 (by decide)⟩,
   ⟨by decide, by decide, (calcRequiredEnd_cases 700).2.2 (by decide) (by decide)⟩⟩

/-- C4: whenever the clock-out minute is at or before the effective start,
`calcWorktime` returns `workedHours = 0` and `overtimeHours = 0` (no
negative value surfaces in the returned hours). -/
theorem calcWorktime_clockOut_before_start (tin tout : Time)
    (h : toMin tout ≤ effStartM (toMin tin)) :
    (calcWorktime tin tout).workHours = 0 ∧ (calcWorktime tin tout).overtimeHours = 0 := by
  constructor
  · rw [calcWorktime_workHours, workHoursM]
    have hw : workMinM (toMin tin) (toMin tout) = 0 := by
      unfold workMinM actualWorkMinM lunchOverlapM effStartM REQUIRED_WORK WORK_START
        LUNCH_START LUNCH_END at *
      omega
    rw [hw]
    norm_num
  · rw [calcWorktime_overtimeHours, overtimeM]
    have hth : ¬ toMin tout > otThresholdM (toMin tin) := by
      unfold otThresholdM calcRequiredEnd effStartM OT_GAP REQUIRED_WORK LUNCH_DURATION
        LUNCH_START LUNCH_END WORK_START at *
      split_ifs <;> omega
    rw [if_neg hth]

/-- Witness for C4, at the spec's own scenario `clockIn = clockOut = 08:30`. -/
theorem calcWorktime_clockOut_before_start_witness :
    toMin ⟨8, 30⟩ ≤ effStartM (toMin ⟨8, 30⟩) ∧
    (calcWorktime ⟨8, 30⟩ ⟨8, 30⟩).workHours = 0 ∧
    (calcWorktime ⟨8, 30⟩ ⟨8, 30⟩).overtimeHours = 0 :=
  ⟨by decide,
   (calcWorktime_clockOut_before_start ⟨8, 30⟩ ⟨8, 30⟩ (by decide)).1,
   (calcWorktime_clockOut_before_start ⟨8, 30⟩ ⟨8, 30⟩ (by decide)).2⟩

/-- C10: when the clock-out is strictly before the effective start, the
deficit note reports the unclamped shortfall `450 - actualWorkMin`, a value
strictly greater than 450, even though the returned hours are clamped. -/
theorem calcWorktime_deficit_unclamped (tin tout : Time)
    (h : toMin tout < effStartM (toMin tin)) :
    deficitNote (REQUIRED_WORK - actualWorkMinM (toMin tin) (toMin tout)) ∈
      (calcWorktime tin tout).notes ∧
    REQUIRED_WORK < REQUIRED_WORK - actualWorkMinM (toMin tin) (toMin tout) := by
  have ha : actualWorkMinM (toMin tin) (toMin tout) < 0 := by
    unfold actualWorkMinM lunchOverlapM effStartM WORK_START LUNCH_START LUNCH_END at *
    omega
  constructor
  · rw [calcWorktime_notes, notesM]
    refine List.mem_append_right _ ?_
    rw [if_pos (by unfold REQUIRED_WORK; omega)]
    exact List.mem_singleton.mpr rfl
  · unfold REQUIRED_WORK
    omega

/-- Witness for C10 at `clockIn = 09:00`, `clockOut = 08:00`: the note
reports being 510 minutes short, more than the full 450-minute requirement. -/
theorem calcWorktime_deficit_unclamped_witness :
    toMin ⟨8, 0⟩ < effStartM (toMin ⟨9, 0⟩) ∧
    deficitNote (REQUIRED_WORK - actualWorkMinM (toMin ⟨9, 0⟩) (toMin ⟨8, 0⟩)) ∈
      (calcWorktime ⟨9, 0⟩ ⟨8, 0⟩).notes ∧
    REQUIRED_WORK < REQUIRED_WORK - actualWorkMinM (toMin ⟨9, 0⟩) (toMin ⟨8, 0⟩) :=
  ⟨by decide,
   (calcWorktime_deficit_unclamped ⟨9, 0⟩ ⟨8, 0⟩ (by decide)).1,
   (calcWorktime_deficit_unclamped ⟨9, 0⟩ ⟨8, 0⟩ (by decide)).2⟩

/-! ### Character-class facts -/

theorem isDigit_ne_of {c x : Char} (h : c.isDigit = true) (hx : x.isDigit = false) : c ≠ x := by
  rintro rfl
  rw [h] at hx
  cases hx

theorem isDigit_not_wsp {c : Char} (h : c.isDigit = true) : wsp c = false := by
  simp only [wsp, Bool.or_eq_false_iff, beq_eq_false_iff_ne, ne_eq]
  refine ⟨⟨⟨⟨⟨?_, ?_⟩, ?_⟩, ?_⟩, ?_⟩, ?_⟩ <;> (rintro rfl; simp [Char.isDigit] at h)

theorem digitDot_not_wsp {c : Char} (h : digitDot c = true) : wsp c = false := by
  rw [digitDot, Bool.or_eq_true] at h
  rcases h with h | h
  · exact isDigit_not_wsp h
  · rw [beq_iff_eq] at h
    subst h
    decide

theorem digitDot_ne_bar {c : Char} (h : digitDot c = true) : c ≠ '|' := by
  rw [digitDot, Bool.or_eq_true] at h
  rcases h with h | h
  · exact isDigit_ne_of h (by decide)
  · rw [beq_iff_eq] at h
    subst h
    decide

theorem digitDot_ne_nl {c : Char} (h : digitDot c = true) : c ≠ '\n' := by
  rw [digitDot, Bool.or_eq_true] at h
  rcases h with h | h
  · exact isDigit_ne_of h (by decide)
  · rw [beq_iff_eq] at h
    subst h
    decide

theorem digitDot_of_isDigit {c : Char} (h : c.isDigit = true) : digitDot c = true := by
  rw [digitDot, h, Bool.true_or]

/-! ### `natToStr` facts -/

theorem digitChar_isDigit {m : ℕ} (h : m < 10) : (Nat.digitChar m).isDigit = true := by
  interval_cases m <;> decide

theorem digitChar_toNat {m : ℕ} (h : m < 10) : (Nat.digitChar m).toNat - '0'.toNat = m := by
  interval_cases m <;> decide

theorem natToStrF_isDigit {fuel m : ℕ} (h : m < fuel) :
    ∀ c ∈ natToStrF fuel m, c.isDigit = true := by
  induction fuel generalizing m with
  | zero => omega
  | succ fuel ih =>
    intro c hc
    rw [natToStrF] at hc
    split at hc
    case isTrue h10 =>
      rw [List.mem_singleton] at hc
      subst hc
      exact digitChar_isDigit h10
    case isFalse h10 =>
      rcases List.mem_append.mp hc with hc | hc
      · exact ih (by have := Nat.div_lt_self (by omega : 0 < m) (by omega : 1 < 10); omega) c hc
      · rw [List.mem_singleton] at hc
        subst hc
        exact digitChar_isDigit (Nat.mod_lt m (by omega))

theorem natToStr_isDigit {n : ℕ} : ∀ c ∈ natToStr n, c.isDigit = true :=
  natToStrF_isDigit (Nat.lt_succ_self n)

theorem natToStr_ne_nil {n : ℕ} : natToStr n ≠ [] := by
  rw [natToStr, natToStrF]
  split
  · simp
  · simp

theorem digitsToNat_append_one (a : Str) (c : Char) :
    digitsToNat (a ++ [c]) = 10 * digitsToNat a + (c.toNat - '0'.toNat) := by
  rw [digitsToNat, List.foldl_append]
  rfl

theorem natToStrF_val {fuel m : ℕ} (h : m < fuel) : digitsToNat (natToStrF fuel m) = m := by
  induction fuel generalizing m with
  | zero => omega
  | succ fuel ih =>
    rw [natToStrF]
    split
    case isTrue h10 =>
      have h1 := digitChar_toNat h10
      simp only [digitsToNat, List.foldl_cons, List.foldl_nil]
      omega
    case isFalse h10 =>
      rw [digitsToNat_append_one,
        ih (by have := Nat.div_lt_self (by omega : 0 < m) (by omega : 1 < 10); omega),
        digitChar_toNat (Nat.mod_lt m (by omega))]
      omega

theorem digitsToNat_natToStr {n : ℕ} : digitsToNat (natToStr n) = n :=
  natToStrF_val (Nat.lt_succ_self n)

/-! ### Scanning over concatenations -/

theorem takeWhile_all_append {p : Char → Bool} {xs : Str} (rest : Str)
    (h : ∀ c ∈ xs, p c = true) :
    (xs ++ rest).takeWhile p = xs ++ rest.takeWhile p := by
  induction xs with
  | nil => simp
  | cons c t ih =>
    rw [List.cons_append, List.takeWhile_cons, h c (List.mem_cons_self c t), if_pos rfl,
      ih (fun x hx => h x (List.mem_cons_of_mem c hx)), List.cons_append]

theorem dropWhile_all_append {p : Char → Bool} {xs : Str} (rest : Str)
    (h : ∀ c ∈ xs, p c = true) :
    (xs ++ rest).dropWhile p = rest.dropWhile p := by
  induction xs with
  | nil => simp
  | cons c t ih =>
    rw [List.cons_append, List.dropWhile_cons, h c (List.mem_cons_self c t),
      if_pos rfl, ih (fun x hx => h x (List.mem_cons_of_mem c hx))]

theorem takeWhile_cons_neg {p : Char → Bool} {c : Char} (t : Str) (h : p c = false) :
    (c :: t).takeWhile p = [] := by
  rw [List.takeWhile_cons, h]
  simp

theorem dropWhile_cons_neg {p : Char → Bool} {c : Char} (t : Str) (h : p c = false) :
    (c :: t).dropWhile p = c :: t := by
  rw [List.dropWhile_cons, h]
  simp

/-! ### `toFixed(1)` / `parseFloat` round trip on one-decimal values -/

theorem jsn_toFixed1_ten (m : ℤ) (hm : 0 ≤ m) :
    JSN.toFixed1 ⟨m, 10⟩ = natToStr (m.toNat / 10) ++ '.' :: [Nat.digitChar (m.toNat % 10)] := by
  have h20 : (2 * (((10 : ℕ) : ℤ))) = 20 := by norm_num
  have hn : (20 * m + ((10 : ℕ) : ℤ)).ediv (2 * ((10 : ℕ) : ℤ)) = m := by
    rw [h20, show (20 * m + ((10 : ℕ) : ℤ)) = 10 + m * 20 by push_cast; ring]
    show (10 + m * 20) / 20 = m
    rw [Int.add_mul_ediv_right _ _ (by norm_num : (20 : ℤ) ≠ 0)]
    norm_num
  simp only [JSN.toFixed1, hn]
  rw [if_neg (by omega)]

theorem digitsToNat_single {r : ℕ} (hr : r < 10) : digitsToNat [Nat.digitChar r] = r := by
  have h1 := digitChar_toNat hr
  simp only [digitsToNat, List.foldl_cons, List.foldl_nil]
  omega

theorem parseFloatDD_natToStr_frac (q r : ℕ) (hr : r < 10) :
    parseFloatDD (natToStr q ++ '.' :: [Nat.digitChar r]) = some ⟨((q * 10 + r : ℕ) : ℤ), 10⟩ := by
  rw [parseFloatDD]
  have hip : (natToStr q ++ '.' :: [Nat.digitChar r]).takeWhile Char.isDigit = natToStr q := by
    rw [takeWhile_all_append _ (fun c hc => natToStr_isDigit c hc),
      takeWhile_cons_neg _ (by decide), List.append_nil]
  have hdp : (natToStr q ++ '.' :: [Nat.digitChar r]).dropWhile Char.isDigit
      = '.' :: [Nat.digitChar r] := by
    rw [dropWhile_all_append _ (fun c hc => natToStr_isDigit c hc),
      dropWhile_cons_neg _ (by decide)]
  rw [hip, hdp]
  simp only []
  have hfp : [Nat.digitChar r].takeWhile Char.isDigit = [Nat.digitChar r] := by
    rw [List.takeWhile_cons, digitChar_isDigit hr]
    rfl
  rw [hfp, if_neg (by simp [natToStr_ne_nil])]
  have h1 : digitsToNat (natToStr q) = q := digitsToNat_natToStr
  have h2 : digitsToNat [Nat.digitChar r] = r := digitsToNat_single hr
  simp only [List.length_cons, List.length_nil, h1, h2, Option.some.injEq, JSN.mk.injEq]
  constructor
  · push_cast
    ring
  · norm_num

theorem parse_render_oneDec (m : ℤ) (hm : 0 ≤ m) :
    parseFloatDD (JSN.toFixed1 ⟨m, 10⟩) = some ⟨m, 10⟩ := by
  rw [jsn_toFixed1_ten m hm, parseFloatDD_natToStr_frac _ _ (Nat.mod_lt _ (by omega))]
  congr 1
  have : m.toNat / 10 * 10 + m.toNat % 10 = m.toNat := by omega
  rw [this, Int.toNat_of_nonneg hm]

theorem toFixed1_digitDot {a : JSN} (hn : 0 ≤ a.num) :
    ∀ c ∈ a.toFixed1, digitDot c = true := by
  intro c hc
  have hnn : 0 ≤ (20 * a.num + (a.den : ℤ)).ediv (2 * (a.den : ℤ)) :=
    Int.ediv_nonneg (by positivity) (by positivity)
  simp only [JSN.toFixed1] at hc
  rw [if_neg (by omega)] at hc
  rcases List.mem_append.mp hc with hc | hc
  · exact digitDot_of_isDigit (natToStr_isDigit c hc)
  · rcases List.mem_cons.mp hc with hc | hc
    · subst hc
      decide
    · rw [List.mem_singleton] at hc
      subst hc
      exact digitDot_of_isDigit (digitChar_isDigit (Nat.mod_lt _ (by omega)))

theorem toFixed1_ne_nil (a : JSN) : a.toFixed1 ≠ [] := by
  simp only [JSN.toFixed1]
  split
  · simp
  · simp [natToStr_ne_nil]

/-! ### The greedy `\S+` candidates -/

/-- A remainder that stops the `\S+` run: empty, or starting with whitespace. -/
def wsBoundary (s : Str) : Prop := s = [] ∨ ∃ c t, s = c :: t ∧ wsp c = true

theorem splitsAsc_nil_of_boundary {s : Str} (h : wsBoundary s) (acc : Str) :
    splitsAsc acc s = [] := by
  rcases h with rfl | ⟨c, t, rfl, hc⟩
  · rfl
  · rw [splitsAsc, hc]
    simp

theorem splitsAsc_reverse {tok s' : Str} (h1 : tok ≠ []) (h2 : ∀ c ∈ tok, wsp c = false)
    (hb : wsBoundary s') :
    ∀ acc, ∃ l', (splitsAsc acc (tok ++ s')).reverse = (acc ++ tok, s') :: l' := by
  induction tok with
  | nil => exact absurd rfl h1
  | cons c t ih =>
    intro acc
    have hc : wsp c = false := h2 c (List.mem_cons_self c t)
    rw [List.cons_append, splitsAsc, hc]
    simp only [Bool.false_eq_true, if_false]
    rcases List.eq_nil_or_concat t with rfl | _
    · rw [List.nil_append, splitsAsc_nil_of_boundary hb]
      exact ⟨[], by simp⟩
    · have ht : t ≠ [] := by
        rintro rfl
        simp_all
      obtain ⟨l₀, hl₀⟩ := ih ht (fun x hx => h2 x (List.mem_cons_of_mem c hx)) (acc ++ [c])
      refine ⟨l₀ ++ [(acc ++ [c], t ++ s')], ?_⟩
      rw [List.reverse_cons, hl₀]
      simp

theorem tokenCands_cons_ws {c : Char} (h : wsp c = true) (s : Str) :
    tokenCands (c :: s) = tokenCands s := by
  rw [tokenCands, tokenCands, List.dropWhile_cons, h]
  simp

theorem tokenCands_head {tok s' rest : Str} (h1 : tok ≠ []) (h2 : ∀ c ∈ tok, wsp c = false)
    (hb : wsBoundary s') (h3 : barAfterWs s' = some rest) :
    ∃ l', tokenCands (tok ++ s') = (tok, rest) :: l' := by
  have hdw : (tok ++ s').dropWhile wsp = tok ++ s' := by
    rcases tok with _ | ⟨c, t⟩
    · exact absurd rfl h1
    · rw [List.cons_append]
      exact dropWhile_cons_neg _ (h2 c (List.mem_cons_self c t))
  obtain ⟨l₀, hl₀⟩ := splitsAsc_reverse h1 h2 hb []
  rw [tokenCands, hdw, hl₀, List.filterMap_cons]
  simp only [List.nil_append, h3, Option.map_some]
  exact ⟨_, rfl⟩

/-- Every `\S+` candidate capture is a nonempty whitespace-free extension. -/
theorem splitsAsc_mem {acc s : Str} :
    ∀ p ∈ splitsAsc acc s,
      (∃ ext, p.1 = acc ++ ext ∧ ext ≠ [] ∧ ∀ c ∈ ext, wsp c = false) ∧
        (∀ c ∈ p.2, c ∈ s) := by
  induction s generalizing acc with
  | nil => intro p hp; cases hp
  | cons c t ih =>
    intro p hp
    rw [splitsAsc] at hp
    by_cases hc : wsp c = true
    · rw [hc] at hp
      simp at hp
    · rw [Bool.not_eq_true] at hc
      rw [hc] at hp
      simp only [Bool.false_eq_true, if_false, List.mem_cons] at hp
      rcases hp with rfl | hp
      · exact ⟨⟨[c], rfl, by simp, by simp [hc]⟩,
          fun x hx => List.mem_cons_of_mem c hx⟩
      · obtain ⟨⟨ext, he1, he2, he3⟩, hsub⟩ := ih p hp
        refine ⟨⟨c :: ext, by rw [he1]; simp, by simp, ?_⟩, ?_⟩
        · intro x hx
          rcases List.mem_cons.mp hx with rfl | hx
          · exact hc
          · exact he3 x hx
        · exact fun x hx => List.mem_cons_of_mem c (hsub x hx)

theorem expectBar_eq_some {s r : Str} : expectBar s = some r ↔ s = '|' :: r := by
  cases s with
  | nil => simp [expectBar]
  | cons c t =>
    rw [expectBar]
    split_ifs with hc
    · subst hc
      simp
    · simp [hc]

theorem expectDash_eq_some {s r : Str} : expectDash s = some r ↔ s = '-' :: r := by
  cases s with
  | nil => simp [expectDash]
  | cons c t =>
    rw [expectDash]
    split_ifs with hc
    · subst hc
      simp
    · simp [hc]

theorem barAfterWs_sub {s rest : Str} (h : barAfterWs s = some rest) :
    ∀ c ∈ rest, c ∈ s := by
  rw [barAfterWs, expectBar_eq_some] at h
  intro x hx
  exact List.dropWhile_subset wsp (by rw [h]; exact List.mem_cons_of_mem _ hx)

theorem tokenCands_mem {s : Str} :
    ∀ p ∈ tokenCands s,
      (p.1 ≠ [] ∧ ∀ c ∈ p.1, wsp c = false) ∧ (∀ c ∈ p.2, c ∈ s) := by
  intro p hp
  rw [tokenCands] at hp
  obtain ⟨q, hq, hfq⟩ := List.mem_filterMap.mp hp
  rw [List.mem_reverse] at hq
  obtain ⟨⟨ext, he1, hne, he3⟩, hsub⟩ := splitsAsc_mem q hq
  rcases hb : barAfterWs q.2 with _ | r <;> rw [hb] at hfq
  · cases hfq
  · rw [show Option.map (fun r => (q.1, r)) (some r) = some (q.1, r) from rfl] at hfq
    cases hfq
    refine ⟨⟨by rw [he1]; simpa using hne, by rw [he1]; simpa using he3⟩, ?_⟩
    intro c hc
    have h1 : c ∈ q.2 := barAfterWs_sub hb c hc
    have h2 : c ∈ s.dropWhile wsp := hsub c h1
    exact List.dropWhile_subset wsp h2

/-! ### `readDigits` / `readDate` -/

theorem readDigits_shape {n : ℕ} {s a t : Str} (h : readDigits n s = some (a, t)) :
    s = a ++ t ∧ a.length = n ∧ ∀ c ∈ a, c.isDigit = true := by
  induction n generalizing s a t with
  | zero =>
    rw [readDigits] at h
    cases h
    exact ⟨rfl, rfl, by simp⟩
  | succ n ih =>
    rcases s with _ | ⟨c, s1⟩
    · cases h
    · rw [readDigits] at h
      split at h
      case isTrue hc =>
        rcases hr : readDigits n s1 with _ | ⟨a1, t1⟩ <;> rw [hr] at h
        · cases h
        · rw [show Option.map (fun p => (c :: p.1, p.2)) (some (a1, t1))
              = some (c :: a1, t1) from rfl] at h
          cases h
          obtain ⟨h1, h2, h3⟩ := ih hr
          refine ⟨by rw [h1]; rfl, by simp [h2], ?_⟩
          intro x hx
          rcases List.mem_cons.mp hx with rfl | hx
          · exact hc
          · exact h3 x hx
      case isFalse => cases h

theorem readDigits_exact {a : Str}
    (h2 : ∀ c ∈ a, c.isDigit = true) (t : Str) :
    readDigits a.length (a ++ t) = some (a, t) := by
  induction a with
  | nil => rfl
  | cons c a1 ih =>
    rw [List.length_cons, List.cons_append, readDigits,
      if_pos (h2 c (List.mem_cons_self c a1)),
      ih (fun x hx => h2 x (List.mem_cons_of_mem c hx))]
    rfl

/-- Building direction: a well-shaped date followed by anything is consumed
exactly. -/
theorem readDate_build {a b c : Str} (ha : a.length = 4) (hb : b.length = 2)
    (hc : c.length = 2) (da : ∀ x ∈ a, x.isDigit = true) (db : ∀ x ∈ b, x.isDigit = true)
    (dc : ∀ x ∈ c, x.isDigit = true) (u : Str) :
    readDate ((a ++ '-' :: b ++ '-' :: c) ++ u) = some (a ++ '-' :: b ++ '-' :: c, u) := by
  have e1 : (a ++ '-' :: b ++ '-' :: c) ++ u = a ++ ('-' :: (b ++ ('-' :: (c ++ u)))) := by
    simp
  have r4 : readDigits 4 (a ++ ('-' :: (b ++ ('-' :: (c ++ u)))))
      = some (a, '-' :: (b ++ ('-' :: (c ++ u)))) := by
    rw [show (4 : ℕ) = a.length by omega]
    exact readDigits_exact da _
  have r2 : readDigits 2 (b ++ ('-' :: (c ++ u))) = some (b, '-' :: (c ++ u)) := by
    rw [show (2 : ℕ) = b.length by omega]
    exact readDigits_exact db _
  have r2' : readDigits 2 (c ++ u) = some (c, u) := by
    rw [show (2 : ℕ) = c.length by omega]
    exact readDigits_exact dc _
  rw [readDate, e1, r4, Option.some_bind,
    show expectDash ((a, '-' :: (b ++ ('-' :: (c ++ u)))) : Str × Str).2
      = some (b ++ ('-' :: (c ++ u))) from by rw [expectDash_eq_some],
    Option.some_bind, r2, Option.some_bind,
    show expectDash ((b, '-' :: (c ++ u)) : Str × Str).2 = some (c ++ u) from by
      rw [expectDash_eq_some],
    Option.some_bind, r2', Option.map_some']

/-- Inversion: a successful date read decomposes the input. -/
theorem readDate_inv {s d t : Str} (h : readDate s = some (d, t)) :
    ∃ a b c, d = a ++ '-' :: b ++ '-' :: c ∧ s = d ++ t ∧
      a.length = 4 ∧ b.length = 2 ∧ c.length = 2 ∧
      (∀ x ∈ a, x.isDigit = true) ∧ (∀ x ∈ b, x.isDigit = true) ∧
      (∀ x ∈ c, x.isDigit = true) := by
  rw [readDate] at h
  rcases h4 : readDigits 4 s with _ | p1 <;> rw [h4] at h
  · rw [Option.none_bind] at h
    cases h
  · rw [Option.some_bind] at h
    rcases hd1 : expectDash p1.2 with _ | s2 <;> rw [hd1] at h
    · rw [Option.none_bind] at h
      cases h
    · rw [Option.some_bind] at h
      rcases h2 : readDigits 2 s2 with _ | p2 <;> rw [h2] at h
      · rw [Option.none_bind] at h
        cases h
      · rw [Option.some_bind] at h
        rcases hd2 : expectDash p2.2 with _ | s4 <;> rw [hd2] at h
        · rw [Option.none_bind] at h
          cases h
        · rw [Option.some_bind] at h
          rcases h3 : readDigits 2 s4 with _ | p3 <;> rw [h3] at h
          · cases h
          · rw [Option.map_some'] at h
            rw [Option.some.injEq, Prod.mk.injEq] at h
            obtain ⟨hd, ht⟩ := h
            obtain ⟨ea, la, dga⟩ := readDigits_shape (by rw [h4] : readDigits 4 s = some (p1.1, p1.2))
            obtain ⟨eb, lb, dgb⟩ := readDigits_shape (by rw [h2] : readDigits 2 s2 = some (p2.1, p2.2))
            obtain ⟨ec, lc, dgc⟩ := readDigits_shape (by rw [h3] : readDigits 2 s4 = some (p3.1, p3.2))
            rw [expectDash_eq_some] at hd1 hd2
            refine ⟨p1.1, p2.1, p3.1, hd.symm, ?_, la, lb, lc, dga, dgb, dgc⟩
            rw [ea, hd1, eb, hd2, ec, ← hd, ← ht]
            simp

theorem readDate_shape {s d t : Str} (h : readDate s = some (d, t)) :
    s = d ++ t ∧ dateShaped d := by
  obtain ⟨a, b, c, hd, hs, la, lb, lc, da, db, dc⟩ := readDate_inv h
  refine ⟨hs, ?_⟩
  rw [dateShaped, hd]
  have hb2 := readDate_build la lb lc da db dc []
  rw [List.append_nil] at hb2
  rw [hb2]

theorem readDate_append {d : Str} (h : dateShaped d) (u : Str) :
    readDate (d ++ u) = some (d, u) := by
  obtain ⟨a, b, c, hd, _, la, lb, lc, da, db, dc⟩ := readDate_inv h
  rw [hd]
  exact readDate_build la lb lc da db dc u

theorem dateShaped_chars {d : Str} (h : dateShaped d) :
    ∀ x ∈ d, x.isDigit = true ∨ x = '-' := by
  obtain ⟨a, b, c, hd, _, _, _, _, da, db, dc⟩ := readDate_inv h
  subst hd
  intro x hx
  simp only [List.mem_append, List.mem_cons] at hx
  rcases hx with (ha | rfl | hb) | rfl | hc
  · exact Or.inl (da x ha)
  · exact Or.inr rfl
  · exact Or.inl (db x hb)
  · exact Or.inr rfl
  · exact Or.inl (dc x hc)

theorem dateShaped_head {d : Str} (h : dateShaped d) :
    ∃ x t, d = x :: t ∧ x.isDigit = true := by
  obtain ⟨a, b, c, hd, _, la, _, _, da, _, _⟩ := readDate_inv h
  rcases a with _ | ⟨x, a1⟩
  · simp at la
  · exact ⟨x, _, by rw [hd]; rfl, da x (List.mem_cons_self x a1)⟩

/-! ### `trim` facts -/

theorem trimS_cons_ws {c : Char} {x : Str} (h : wsp c = true) : trimS (c :: x) = trimS x := by
  rw [trimS, trimS, List.dropWhile_cons, h, if_pos rfl]

theorem trimS_concat_ws {c : Char} {x : Str} (h : wsp c = true) : trimS (x ++ [c]) = trimS x := by
  rw [trimS, trimS, List.dropWhile_append]
  split
  case isTrue he =>
    rw [List.isEmpty_iff] at he
    rw [he, List.dropWhile_cons, h, if_pos rfl]
    rfl
  case isFalse he =>
    rw [List.reverse_append, List.reverse_singleton, List.singleton_append,
      List.dropWhile_cons, h, if_pos rfl]

theorem trimS_pad (x : Str) : trimS (' ' :: (x ++ [' '])) = trimS x := by
  rw [trimS_cons_ws (by decide), trimS_concat_ws (by decide)]

theorem mem_trimS_sub {x : Str} : ∀ c ∈ trimS x, c ∈ x := by
  intro c hc
  rw [trimS] at hc
  rw [List.mem_reverse] at hc
  have h1 := List.dropWhile_subset (l := (x.dropWhile wsp).reverse) wsp hc
  rw [List.mem_reverse] at h1
  exact List.dropWhile_subset wsp h1

theorem head?_dropWhile_not {p : Char → Bool} (l : Str) :
    ∀ c, (l.dropWhile p).head? = some c → p c = false := by
  intro c hc
  rcases hd : l.dropWhile p with _ | ⟨a, t⟩ <;> rw [hd] at hc
  · cases hc
  · have hhead := List.head_dropWhile_not p l
    rw [hd] at hhead
    cases hc
    simpa using hhead (by simp)

theorem dropWhile_eq_self_of_head? {p : Char → Bool} {l : Str}
    (h : ∀ c, l.head? = some c → p c = false) : l.dropWhile p = l := by
  cases l with
  | nil => rfl
  | cons c t => exact dropWhile_cons_neg t (h c rfl)

theorem trimS_idem (x : Str) : trimS (trimS x) = trimS x := by
  have hzx : trimS x = ((x.dropWhile wsp).reverse.dropWhile wsp).reverse := rfl
  rw [trimS]
  have h1 : (trimS x).dropWhile wsp = trimS x := by
    apply dropWhile_eq_self_of_head?
    intro c hc
    rw [hzx, List.head?_reverse] at hc
    have hzne : (x.dropWhile wsp).reverse.dropWhile wsp ≠ [] := by
      rintro h0
      rw [h0] at hc
      cases hc
    obtain ⟨pre, hpre⟩ := List.dropWhile_suffix (l := (x.dropWhile wsp).reverse) wsp
    have hc2 : ((x.dropWhile wsp).reverse).getLast? = some c := by
      rw [← hpre, List.getLast?_append_of_ne_nil _ hzne, hc]
    rw [List.getLast?_reverse] at hc2
    exact head?_dropWhile_not x c hc2
  rw [h1, hzx, List.reverse_reverse]
  have h2 : ((x.dropWhile wsp).reverse.dropWhile wsp).dropWhile wsp
      = (x.dropWhile wsp).reverse.dropWhile wsp :=
    dropWhile_eq_self_of_head? (head?_dropWhile_not (x.dropWhile wsp).reverse)
  rw [h2]

/-! ### The row parser on a rendered row -/

theorem dropWhile_wsp_cons_sp (x : Str) : (' ' :: x).dropWhile wsp = x.dropWhile wsp := by
  rw [List.dropWhile_cons, if_pos (show wsp ' ' = true by decide)]

theorem barAfterWs_sp_bar (z : Str) : barAfterWs (' ' :: '|' :: z) = some z := by
  rw [barAfterWs, dropWhile_wsp_cons_sp, dropWhile_cons_neg _ (show wsp '|' = false by decide),
    expectBar, if_pos rfl]

theorem tokenCands_head_sp {tok z : Str} (h1 : tok ≠ []) (h2 : ∀ c ∈ tok, wsp c = false)
    (rest : Str) (hz : z = ' ' :: '|' :: rest) :
    ∃ l', tokenCands (tok ++ z) = (tok, rest) :: l' := by
  subst hz
  exact tokenCands_head h1 h2 (Or.inr ⟨' ', _, rfl, by decide⟩) (barAfterWs_sp_bar rest)

theorem numField_cell {cell rest : Str} (h1 : cell ≠ []) (h2 : ∀ c ∈ cell, digitDot c = true) :
    numField (' ' :: (cell ++ ' ' :: '|' :: rest)) = some (cell, rest) := by
  rcases cell with _ | ⟨c0, ct⟩
  · exact absurd rfl h1
  · rw [numField, dropWhile_wsp_cons_sp, List.cons_append,
      dropWhile_cons_neg _ (digitDot_not_wsp (h2 c0 (List.mem_cons_self c0 ct))),
      ← List.cons_append,
      takeWhile_all_append _ h2, takeWhile_cons_neg _ (show digitDot ' ' = false by decide),
      List.append_nil, dropWhile_all_append _ h2,
      dropWhile_cons_neg _ (show digitDot ' ' = false by decide),
      if_neg (by simp), barAfterWs_sp_bar, Option.map_some']

theorem numFieldMark_cell {cell mark rest : Str} (h1 : cell ≠ [])
    (h2 : ∀ c ∈ cell, digitDot c = true)
    (hm : mark = [] ∨ mark = " 🔥".toList) :
    numFieldMark (' ' :: (cell ++ (mark ++ ' ' :: '|' :: rest))) = some (cell, rest) := by
  rcases cell with _ | ⟨c0, ct⟩
  · exact absurd rfl h1
  · have hmark : ∀ z : Str, (mark ++ ' ' :: '|' :: z).takeWhile digitDot = [] ∧
        ((mark ++ ' ' :: '|' :: z).dropWhile digitDot).dropWhile (fun c => !(c == '|'))
          = '|' :: z := by
      intro z
      rcases hm with rfl | rfl
      · exact ⟨takeWhile_cons_neg _ (by decide), by
          rw [List.nil_append, dropWhile_cons_neg _ (show digitDot ' ' = false by decide),
            List.dropWhile_cons, if_pos (by decide), dropWhile_cons_neg _ (by decide)]⟩
      · refine ⟨takeWhile_cons_neg _ (by decide), ?_⟩
        rw [show " 🔥".toList ++ ' ' :: '|' :: z = ' ' :: '🔥' :: ' ' :: '|' :: z from rfl,
          dropWhile_cons_neg _ (show digitDot ' ' = false by decide),
          List.dropWhile_cons, if_pos (by decide), List.dropWhile_cons, if_pos (by decide),
          List.dropWhile_cons, if_pos (by decide), dropWhile_cons_neg _ (by decide)]
    rw [numFieldMark, dropWhile_wsp_cons_sp, List.cons_append,
      dropWhile_cons_neg _ (digitDot_not_wsp (h2 c0 (List.mem_cons_self c0 ct))),
      ← List.cons_append,
      takeWhile_all_append _ h2, (hmark rest).1, List.append_nil,
      dropWhile_all_append _ h2, (hmark rest).2,
      if_neg (by simp), expectBar, if_pos rfl, Option.map_some']

theorem noteField_cell (note : Str) :
    noteField (' ' :: (note ++ [' ', '|'])) = some (trimS note) := by
  have hrev : (' ' :: (note ++ [' ', '|'])).reverse = '|' :: (' ' :: (note.reverse ++ [' '])) := by
    simp
  have hrr : (' ' :: (note.reverse ++ [' '])).reverse = ' ' :: (note ++ [' ']) := by
    simp
  rw [noteField, hrev, expectBar, if_pos rfl, Option.map_some', hrr, trimS_pad]

theorem jfix1_cell {w : Option JSN} (h : numNN w) :
    jfix1 w ≠ [] ∧ ∀ c ∈ jfix1 w, digitDot c = true := by
  rcases w with _ | a
  · exact absurd h (by rw [numNN]; exact fun x => x)
  · exact ⟨toFixed1_ne_nil a, toFixed1_digitDot h⟩

theorem parseRow_bar (s1 : Str) :
    parseRow ('|' :: s1) = (readDate (s1.dropWhile wsp)).bind (fun d =>
      (barAfterWs d.2).bind (fun s3 =>
        (tokenCands s3).findSome? (fun p1 =>
          (tokenCands p1.2).findSome? (fun p2 =>
            (numField p2.2).bind (fun w =>
              (numFieldMark w.2).bind (fun o =>
                (noteField o.2).map (fun note =>
                  ⟨d.1, p1.1, p2.1, parseFloatDD w.1, parseFloatDD o.1, note⟩))))))) := rfl

theorem renderRow_eq (r : Rec) :
    renderRow r = '|' :: ' ' :: (r.date ++
      ' ' :: '|' :: ' ' :: (r.inTime ++
        ' ' :: '|' :: ' ' :: (r.outTime ++
          ' ' :: '|' :: ' ' :: (jfix1 r.work ++
            ' ' :: '|' :: ' ' :: (jfix1 r.ot ++
              ((if jpos r.ot then " 🔥".toList else []) ++
                ' ' :: '|' :: ' ' :: (r.note ++ [' ', '|']))))))) := by
  rw [renderRow, show "| ".toList = ['|', ' '] from rfl,
    show " | ".toList = [' ', '|', ' '] from rfl, show " |".toList = [' ', '|'] from rfl]
  simp [List.append_assoc]

/-- The row parser applied to a rendered row: the fields come back, with the
stored numbers re-read from their one-decimal rendering and the note
trimmed. -/
theorem parseRow_renderRow (r : Rec)
    (hd : dateShaped r.date) (hin : tokenOk r.inTime) (hout : tokenOk r.outTime)
    (hw : numNN r.work) (ho : numNN r.ot) :
    parseRow (renderRow r) =
      some ⟨r.date, r.inTime, r.outTime, parseFloatDD (jfix1 r.work),
        parseFloatDD (jfix1 r.ot), trimS r.note⟩ := by
  obtain ⟨x0, dt, hdeq, hx0⟩ := dateShaped_head hd
  obtain ⟨hw1, hw2⟩ := jfix1_cell hw
  obtain ⟨ho1, ho2⟩ := jfix1_cell ho
  rw [renderRow_eq, parseRow_bar, dropWhile_wsp_cons_sp]
  rw [show (r.date ++ ' ' :: '|' :: ' ' :: (r.inTime ++
      ' ' :: '|' :: ' ' :: (r.outTime ++
        ' ' :: '|' :: ' ' :: (jfix1 r.work ++
          ' ' :: '|' :: ' ' :: (jfix1 r.ot ++
            ((if jpos r.ot then " 🔥".toList else []) ++
              ' ' :: '|' :: ' ' :: (r.note ++ [' ', '|']))))))).dropWhile wsp
    = r.date ++ ' ' :: '|' :: ' ' :: (r.inTime ++
      ' ' :: '|' :: ' ' :: (r.outTime ++
        ' ' :: '|' :: ' ' :: (jfix1 r.work ++
          ' ' :: '|' :: ' ' :: (jfix1 r.ot ++
            ((if jpos r.ot then " 🔥".toList else []) ++
              ' ' :: '|' :: ' ' :: (r.note ++ [' ', '|'])))))) from by
    rw [hdeq, List.cons_append, dropWhile_cons_neg _ (isDigit_not_wsp hx0), ← List.cons_append,
      ← hdeq]]
  rw [readDate_append hd, Option.some_bind]
  rw [show ((r.date, ' ' :: '|' :: ' ' :: (r.inTime ++
      ' ' :: '|' :: ' ' :: (r.outTime ++
        ' ' :: '|' :: ' ' :: (jfix1 r.work ++
          ' ' :: '|' :: ' ' :: (jfix1 r.ot ++
            ((if jpos r.ot then " 🔥".toList else []) ++
              ' ' :: '|' :: ' ' :: (r.note ++ [' ', '|']))))))) : Str × Str).2
    = ' ' :: '|' :: ' ' :: (r.inTime ++
      ' ' :: '|' :: ' ' :: (r.outTime ++
        ' ' :: '|' :: ' ' :: (jfix1 r.work ++
          ' ' :: '|' :: ' ' :: (jfix1 r.ot ++
            ((if jpos r.ot then " 🔥".toList else []) ++
              ' ' :: '|' :: ' ' :: (r.note ++ [' ', '|'])))))) from rfl]
  rw [barAfterWs_sp_bar, Option.some_bind]
  obtain ⟨l1, hl1⟩ := tokenCands_head_sp hin.1 hin.2
    (' ' :: (r.outTime ++ ' ' :: '|' :: ' ' :: (jfix1 r.work ++
      ' ' :: '|' :: ' ' :: (jfix1 r.ot ++
        ((if jpos r.ot then " 🔥".toList else []) ++
          ' ' :: '|' :: ' ' :: (r.note ++ [' ', '|'])))))) rfl
  rw [show (' ' :: (r.inTime ++ ' ' :: '|' :: ' ' :: (r.outTime ++
      ' ' :: '|' :: ' ' :: (jfix1 r.work ++
        ' ' :: '|' :: ' ' :: (jfix1 r.ot ++
          ((if jpos r.ot then " 🔥".toList else []) ++
            ' ' :: '|' :: ' ' :: (r.note ++ [' ', '|'])))))))
    = ' ' :: (r.inTime ++ ' ' :: '|' :: (' ' :: (r.outTime ++
      ' ' :: '|' :: ' ' :: (jfix1 r.work ++
        ' ' :: '|' :: ' ' :: (jfix1 r.ot ++
          ((if jpos r.ot then " 🔥".toList else []) ++
            ' ' :: '|' :: ' ' :: (r.note ++ [' ', '|']))))))) from rfl]
  rw [tokenCands_cons_ws (by decide), hl1, List.findSome?_cons]
  have hinner : ((tokenCands ((r.inTime, ' ' :: (r.outTime ++
      ' ' :: '|' :: ' ' :: (jfix1 r.work ++
        ' ' :: '|' :: ' ' :: (jfix1 r.ot ++
          ((if jpos r.ot then " 🔥".toList else []) ++
            ' ' :: '|' :: ' ' :: (r.note ++ [' ', '|'])))))) : Str × Str).2).findSome?
      (fun p2 => (numField p2.2).bind (fun w =>
        (numFieldMark w.2).bind (fun o =>
          (noteField o.2).map (fun note =>
            (⟨r.date, r.inTime, p2.1, parseFloatDD w.1, parseFloatDD o.1, note⟩ : Rec))))))
      = some ⟨r.date, r.inTime, r.outTime, parseFloatDD (jfix1 r.work),
          parseFloatDD (jfix1 r.ot), trimS r.note⟩ := by
    obtain ⟨l2, hl2⟩ := tokenCands_head_sp hout.1 hout.2
      (' ' :: (jfix1 r.work ++ ' ' :: '|' :: ' ' :: (jfix1 r.ot ++
        ((if jpos r.ot then " 🔥".toList else []) ++
          ' ' :: '|' :: ' ' :: (r.note ++ [' ', '|']))))) rfl
    rw [show ((r.inTime, ' ' :: (r.outTime ++
        ' ' :: '|' :: ' ' :: (jfix1 r.work ++
          ' ' :: '|' :: ' ' :: (jfix1 r.ot ++
            ((if jpos r.ot then " 🔥".toList else []) ++
              ' ' :: '|' :: ' ' :: (r.note ++ [' ', '|'])))))) : Str × Str).2
      = ' ' :: (r.outTime ++ ' ' :: '|' :: (' ' :: (jfix1 r.work ++
          ' ' :: '|' :: ' ' :: (jfix1 r.ot ++
            ((if jpos r.ot then " 🔥".toList else []) ++
              ' ' :: '|' :: ' ' :: (r.note ++ [' ', '|'])))))) from rfl]
    rw [tokenCands_cons_ws (by decide), hl2, List.findSome?_cons]
    have hnum : numField ((r.outTime, ' ' :: (jfix1 r.work ++
        ' ' :: '|' :: ' ' :: (jfix1 r.ot ++
          ((if jpos r.ot then " 🔥".toList else []) ++
            ' ' :: '|' :: ' ' :: (r.note ++ [' ', '|']))))) : Str × Str).2
        = some (jfix1 r.work, ' ' :: (jfix1 r.ot ++
          ((if jpos r.ot then " 🔥".toList else []) ++
            ' ' :: '|' :: ' ' :: (r.note ++ [' ', '|'])))) := by
      rw [show ((r.outTime, ' ' :: (jfix1 r.work ++
          ' ' :: '|' :: ' ' :: (jfix1 r.ot ++
            ((if jpos r.ot then " 🔥".toList else []) ++
              ' ' :: '|' :: ' ' :: (r.note ++ [' ', '|']))))) : Str × Str).2
        = ' ' :: (jfix1 r.work ++ ' ' :: '|' :: (' ' :: (jfix1 r.ot ++
            ((if jpos r.ot then " 🔥".toList else []) ++
              ' ' :: '|' :: ' ' :: (r.note ++ [' ', '|']))))) from rfl]
      exact numField_cell hw1 hw2
    rw [hnum, Option.some_bind]
    have hmark : numFieldMark ((jfix1 r.work, ' ' :: (jfix1 r.ot ++
        ((if jpos r.ot then " 🔥".toList else []) ++
          ' ' :: '|' :: ' ' :: (r.note ++ [' ', '|'])))) : Str × Str).2
        = some (jfix1 r.ot, ' ' :: (r.note ++ [' ', '|'])) := by
      rw [show ((jfix1 r.work, ' ' :: (jfix1 r.ot ++
          ((if jpos r.ot then " 🔥".toList else []) ++
            ' ' :: '|' :: ' ' :: (r.note ++ [' ', '|'])))) : Str × Str).2
        = ' ' :: (jfix1 r.ot ++ ((if jpos r.ot then " 🔥".toList else []) ++
            ' ' :: '|' :: (' ' :: (r.note ++ [' ', '|'])))) from rfl]
      exact numFieldMark_cell ho1 ho2 (by split <;> simp)
    rw [hmark, Option.some_bind]
    rw [show ((jfix1 r.ot, ' ' :: (r.note ++ [' ', '|'])) : Str × Str).2
      = ' ' :: (r.note ++ [' ', '|']) from rfl]
    rw [noteField_cell, Option.map_some']
  rw [hinner]

theorem numNN_of_oneDec {w : Option JSN} (h : oneDec w) : numNN w := by
  rcases w with _ | a
  · exact h
  · exact h.1

theorem oneDec_parse_jfix1 {w : Option JSN} (h : oneDec w) : parseFloatDD (jfix1 w) = w := by
  rcases w with _ | a
  · exact absurd h not_false
  · obtain ⟨hm, hd10⟩ := h
    have ha : a = ⟨a.num, 10⟩ := by
      rw [← hd10]
    rw [show jfix1 (some a) = a.toFixed1 from rfl, ha]
    exact parse_render_oneDec a.num hm

/-- On a well-formed record the row parser inverts the row renderer exactly. -/
theorem parseRow_renderRow_self {r : Rec} (h : recWF r) : parseRow (renderRow r) = some r := by
  obtain ⟨hd, hin, hout, hw, ho, hnote, _⟩ := h
  rw [parseRow_renderRow r hd hin hout (numNN_of_oneDec hw) (numNN_of_oneDec ho),
    oneDec_parse_jfix1 hw, oneDec_parse_jfix1 ho, hnote]

/-! ### Parser output shapes -/

theorem numField_sub {s cap rest : Str} (h : numField s = some (cap, rest)) :
    ∀ c ∈ rest, c ∈ s := by
  rw [numField] at h
  split at h
  · cases h
  · rcases hb : barAfterWs ((s.dropWhile wsp).dropWhile digitDot) with _ | r <;> rw [hb] at h
    · cases h
    · rw [Option.map_some'] at h
      cases h
      intro c hc
      have h1 := barAfterWs_sub hb c hc
      have h2 := List.dropWhile_subset digitDot h1
      exact List.dropWhile_subset wsp h2

theorem numFieldMark_sub {s cap rest : Str} (h : numFieldMark s = some (cap, rest)) :
    ∀ c ∈ rest, c ∈ s := by
  rw [numFieldMark] at h
  split at h
  · cases h
  · rcases hb : expectBar (((s.dropWhile wsp).dropWhile digitDot).dropWhile
        (fun c => !(c == '|'))) with _ | r <;> rw [hb] at h
    · cases h
    · rw [Option.map_some'] at h
      cases h
      intro c hc
      rw [expectBar_eq_some] at hb
      have h0 : c ∈ ((s.dropWhile wsp).dropWhile digitDot).dropWhile (fun c => !(c == '|')) := by
        rw [hb]
        exact List.mem_cons_of_mem _ hc
      have h1 := List.dropWhile_subset (fun c => !(c == '|')) h0
      have h2 := List.dropWhile_subset digitDot h1
      exact List.dropWhile_subset wsp h2

theorem noteField_sub {s note : Str} (h : noteField s = some note) :
    ∀ c ∈ note, c ∈ s := by
  rw [noteField] at h
  rcases hb : expectBar s.reverse with _ | r <;> rw [hb] at h
  · cases h
  · rw [Option.map_some'] at h
    cases h
    intro c hc
    rw [expectBar_eq_some] at hb
    have h1 : c ∈ r.reverse := mem_trimS_sub c hc
    rw [List.mem_reverse] at h1
    have h2 : c ∈ s.reverse := by
      rw [hb]
      exact List.mem_cons_of_mem _ h1
    rwa [List.mem_reverse] at h2

theorem noteField_trimmed {s note : Str} (h : noteField s = some note) :
    trimS note = note := by
  rw [noteField] at h
  rcases hb : expectBar s.reverse with _ | r <;> rw [hb] at h
  · cases h
  · rw [Option.map_some'] at h
    cases h
    exact trimS_idem _

/-- Shape invariants of every record the row parser produces. -/
theorem parseRow_shapes {line : Str} {r : Rec} (h : parseRow line = some r) :
    dateShaped r.date ∧ tokenOk r.inTime ∧ tokenOk r.outTime ∧
      trimS r.note = r.note ∧ (∀ c ∈ r.note, c ∈ line) := by
  rw [parseRow.eq_def] at h
  split at h
  case h_2 => cases h
  case h_1 s1 =>
    rcases hrd : readDate (s1.dropWhile wsp) with _ | d <;> rw [hrd] at h
    · rw [Option.none_bind] at h
      cases h
    · rw [Option.some_bind] at h
      have hds := readDate_shape (show readDate (s1.dropWhile wsp) = some (d.1, d.2) by
        rw [hrd])
      rcases hbw : barAfterWs d.2 with _ | s3 <;> rw [hbw] at h
      · rw [Option.none_bind] at h
        cases h
      · rw [Option.some_bind] at h
        obtain ⟨p1, hp1m, hp1⟩ := List.exists_of_findSome?_eq_some h
        obtain ⟨p2, hp2m, hp2⟩ := List.exists_of_findSome?_eq_some hp1
        rcases hnf : numField p2.2 with _ | w <;> rw [hnf] at hp2
        · cases hp2
        · rw [Option.some_bind] at hp2
          rcases hnm : numFieldMark w.2 with _ | o <;> rw [hnm] at hp2
          · cases hp2
          · rw [Option.some_bind] at hp2
            rcases hno : noteField o.2 with _ | note <;> rw [hno] at hp2
            · cases hp2
            · rw [Option.map_some'] at hp2
              cases hp2
              obtain ⟨hp1tok, hp1sub⟩ := tokenCands_mem p1 hp1m
              obtain ⟨hp2tok, hp2sub⟩ := tokenCands_mem p2 hp2m
              refine ⟨hds.2, hp1tok, hp2tok, noteField_trimmed hno, ?_⟩
              intro c hc
              have s7 := noteField_sub hno c hc
              have s6 := numFieldMark_sub (show numFieldMark w.2 = some (o.1, o.2) by
                rw [hnm]) c s7
              have s5 := numField_sub (show numField p2.2 = some (w.1, w.2) by
                rw [hnf]) c s6
              have s4 := hp2sub c s5
              have s3' := hp1sub c s4
              have s2 := barAfterWs_sub hbw c s3'
              have s1' : c ∈ s1.dropWhile wsp := by
                rw [hds.1]
                exact List.mem_append_right _ s2
              exact List.mem_cons_of_mem _ (List.dropWhile_subset wsp s1')

/-! ### The record map -/

theorem setRec_of_not_mem {m : List Rec} {v : Rec} (h : ∀ x ∈ m, x.date ≠ v.date) :
    setRec m v = m ++ [v] := by
  rw [setRec, if_neg]
  rw [List.any_eq_true]
  rintro ⟨x, hx, hxe⟩
  exact h x hx (of_decide_eq_true hxe)

theorem setRec_dates_replace {m : List Rec} {v : Rec} (h : ∃ x ∈ m, x.date = v.date) :
    (setRec m v).map Rec.date = m.map Rec.date := by
  rw [setRec, if_pos]
  · rw [List.map_map]
    apply List.map_congr_left
    intro r _
    simp only [Function.comp_apply]
    split
    case isTrue he => rw [← he]
    case isFalse => rfl
  · rw [List.any_eq_true]
    obtain ⟨x, hx, he⟩ := h
    exact ⟨x, hx, decide_eq_true he⟩

theorem setRec_dates_nodup {m : List Rec} {v : Rec} (h : (m.map Rec.date).Nodup) :
    ((setRec m v).map Rec.date).Nodup := by
  by_cases hc : ∃ x ∈ m, x.date = v.date
  · rw [setRec_dates_replace hc]
    exact h
  · push_neg at hc
    rw [setRec_of_not_mem hc, List.map_append]
    rw [List.nodup_append]
    refine ⟨h, by simp, ?_⟩
    intro a ha
    simp only [List.map_cons, List.map_nil, List.mem_singleton]
    rintro rfl
    obtain ⟨x, hx, hxd⟩ := List.mem_map.mp ha
    exact hc x hx hxd

theorem setRec_mem {m : List Rec} {v x : Rec} (h : x ∈ setRec m v) : x ∈ m ∨ x = v := by
  rw [setRec] at h
  split at h
  · obtain ⟨y, hy, hyx⟩ := List.mem_map.mp h
    split at hyx
    · exact Or.inr hyx.symm
    · exact Or.inl (hyx ▸ hy)
  · rcases List.mem_append.mp h with h | h
    · exact Or.inl h
    · exact Or.inr (List.mem_singleton.mp h)

theorem setRec_keeps {m : List Rec} {v x : Rec} (hx : x ∈ m) (hne : x.date ≠ v.date) :
    x ∈ setRec m v := by
  rw [setRec]
  split
  · rw [List.mem_map]
    exact ⟨x, hx, by rw [if_neg hne]⟩
  · exact List.mem_append_left _ hx

theorem setRec_self {m : List Rec} {v : Rec} (hv : v ∈ m)
    (huniq : ∀ x ∈ m, x.date = v.date → x = v) : setRec m v = m := by
  rw [setRec, if_pos]
  · have hpt : ∀ r ∈ m, (if r.date = v.date then v else r) = id r := by
      intro r hr
      split
      case isTrue he => exact (huniq r hr he).symm
      case isFalse => rfl
    rw [List.map_congr_left hpt, List.map_id]
  · rw [List.any_eq_true]
    exact ⟨v, hv, decide_eq_true rfl⟩

theorem foldl_parseStep_nodup (lines : List Str) :
    ∀ m : List Rec, (m.map Rec.date).Nodup →
      ((lines.foldl parseStep m).map Rec.date).Nodup := by
  induction lines with
  | nil => exact fun m h => h
  | cons line rest ih =>
    intro m h
    rw [List.foldl_cons]
    refine ih _ ?_
    rw [parseStep]
    split
    · exact setRec_dates_nodup h
    · exact h

theorem parseRecords_nodup (lines : List Str) :
    ((parseRecords lines).map Rec.date).Nodup := by
  rw [parseRecords]
  exact foldl_parseStep_nodup lines [] (by simp)

theorem foldl_parseStep_mem (lines : List Str) :
    ∀ m : List Rec, ∀ x ∈ lines.foldl parseStep m,
      x ∈ m ∨ ∃ line ∈ lines, parseRow line = some x := by
  induction lines with
  | nil => exact fun m x hx => Or.inl hx
  | cons line rest ih =>
    intro m x hx
    rw [List.foldl_cons] at hx
    rcases ih _ x hx with h | ⟨l0, hl0, hp0⟩
    · rw [parseStep] at h
      split at h
      case h_1 r heq =>
        rcases setRec_mem h with h | rfl
        · exact Or.inl h
        · exact Or.inr ⟨line, List.mem_cons_self _ _, heq⟩
      case h_2 => exact Or.inl h
    · exact Or.inr ⟨l0, List.mem_cons_of_mem _ hl0, hp0⟩

theorem parseRecords_mem {lines : List Str} {x : Rec} (hx : x ∈ parseRecords lines) :
    ∃ line ∈ lines, parseRow line = some x := by
  rw [parseRecords] at hx
  rcases foldl_parseStep_mem lines [] x hx with h | h
  · cases h
  · exact h

/-! ### The `localeCompare` order on date keys -/

theorem lexLe_refl (a : Str) : lexLe a a = true := by
  induction a with
  | nil => rfl
  | cons x xs ih =>
    rw [lexLe, if_neg (lt_irrefl x), if_neg (lt_irrefl x)]
    exact ih

theorem lexLe_total (a b : Str) : lexLe a b = true ∨ lexLe b a = true := by
  induction a generalizing b with
  | nil => exact Or.inl rfl
  | cons x xs ih =>
    cases b with
    | nil => exact Or.inr rfl
    | cons y ys =>
      rw [lexLe, lexLe]
      by_cases h1 : x < y
      · rw [if_pos h1]
        exact Or.inl rfl
      · by_cases h2 : y < x
        · right
          rw [if_pos h2]
        · rw [if_neg h1, if_neg h2, if_neg h2, if_neg h1]
          exact ih ys

theorem lexLe_antisymm {a b : Str} (h1 : lexLe a b = true) (h2 : lexLe b a = true) :
    a = b := by
  induction a generalizing b with
  | nil =>
    cases b with
    | nil => rfl
    | cons y ys =>
      rw [lexLe] at h2
      cases h2
  | cons x xs ih =>
    cases b with
    | nil =>
      rw [lexLe] at h1
      cases h1
    | cons y ys =>
      rw [lexLe] at h1 h2
      by_cases hxy : x < y
      · rw [if_neg (asymm hxy), if_pos hxy] at h2
        cases h2
      · by_cases hyx : y < x
        · rw [if_neg hxy, if_pos hyx] at h1
          cases h1
        · rw [if_neg hxy, if_neg hyx] at h1
          rw [if_neg hyx, if_neg hxy] at h2
          have hxyeq : x = y := le_antisymm (le_of_not_lt hyx) (le_of_not_lt hxy)
          rw [hxyeq, ih h1 h2]

theorem lexLe_trans {a b c : Str} (h1 : lexLe a b = true) (h2 : lexLe b c = true) :
    lexLe a c = true := by
  induction a generalizing b c with
  | nil => rfl
  | cons x xs ih =>
    cases b with
    | nil =>
      rw [lexLe] at h1
      cases h1
    | cons y ys =>
      cases c with
      | nil =>
        rw [lexLe] at h2
        cases h2
      | cons z zs =>
        rw [lexLe] at h1 h2 ⊢
        by_cases hxy : x < y
        · by_cases hyz : y < z
          · rw [if_pos (hxy.trans hyz)]
          · by_cases hzy : z < y
            · rw [if_neg hyz, if_pos hzy] at h2
              cases h2
            · rw [if_pos (lt_of_lt_of_le hxy (le_of_not_lt hzy))]
        · by_cases hyx : y < x
          · rw [if_neg hxy, if_pos hyx] at h1
            cases h1
          · have hxyeq : x = y := le_antisymm (le_of_not_lt hyx) (le_of_not_lt hxy)
            subst hxyeq
            rw [if_neg hxy, if_neg hyx] at h1
            by_cases hxz : x < z
            · rw [if_pos hxz]
            · by_cases hzx : z < x
              · rw [if_neg hxz, if_pos hzx] at h2
                cases h2
              · rw [if_neg hxz, if_neg hzx] at h2 ⊢
                exact ih h1 h2

theorem lexLt_iff {a b : Str} : lexLt a b = true ↔ lexLe a b = true ∧ a ≠ b := by
  induction a generalizing b with
  | nil =>
    cases b with
    | nil => simp [lexLt, lexLe]
    | cons y ys => simp [lexLt, lexLe]
  | cons x xs ih =>
    cases b with
    | nil => simp [lexLt, lexLe]
    | cons y ys =>
      rw [lexLt, lexLe]
      by_cases h1 : x < y
      · rw [if_pos h1, if_pos h1]
        simp only [true_iff, true_and, ne_eq, List.cons.injEq, not_and]
        exact fun he => absurd he (ne_of_lt h1)
      · by_cases h2 : y < x
        · rw [if_neg h1, if_pos h2, if_neg h1, if_pos h2]
          simp
        · rw [if_neg h1, if_neg h2, if_neg h1, if_neg h2]
          have hxyeq : x = y := le_antisymm (le_of_not_lt h2) (le_of_not_lt h1)
          subst hxyeq
          rw [ih]
          simp

/-! ### Insertion sort by date -/

theorem insertByDate_perm (r : Rec) (l : List Rec) : List.Perm (insertByDate r l) (r :: l) := by
  induction l with
  | nil => exact List.Perm.refl _
  | cons x xs ih =>
    rw [insertByDate]
    split
    · exact List.Perm.refl _
    · exact (ih.cons x).trans (List.Perm.swap r x xs)

theorem sortByDate_perm (l : List Rec) : List.Perm (sortByDate l) l := by
  induction l with
  | nil => exact List.Perm.refl _
  | cons x xs ih =>
    rw [sortByDate, List.foldr_cons]
    exact (insertByDate_perm x _).trans (ih.cons x)

theorem insertByDate_sorted {r : Rec} {l : List Rec}
    (h : List.Pairwise (fun a b : Rec => lexLe a.date b.date = true) l) :
    List.Pairwise (fun a b : Rec => lexLe a.date b.date = true) (insertByDate r l) := by
  induction l with
  | nil => simp [insertByDate]
  | cons x xs ih =>
    obtain ⟨hx, hxs⟩ := List.pairwise_cons.mp h
    rw [insertByDate]
    split
    case isTrue hle =>
      refine List.pairwise_cons.mpr ⟨?_, h⟩
      intro y hy
      rcases List.mem_cons.mp hy with rfl | hy
      · exact hle
      · exact lexLe_trans hle (hx y hy)
    case isFalse hgt =>
      refine List.pairwise_cons.mpr ⟨?_, ih hxs⟩
      intro y hy
      have hy2 : y ∈ r :: xs := (insertByDate_perm r xs).subset hy
      rcases List.mem_cons.mp hy2 with rfl | hyxs
      · rcases lexLe_total y.date x.date with h0 | h0
        · exact absurd h0 hgt
        · exact h0
      · exact hx y hyxs

theorem sortByDate_sorted (l : List Rec) :
    List.Pairwise (fun a b : Rec => lexLe a.date b.date = true) (sortByDate l) := by
  induction l with
  | nil => simp [sortByDate]
  | cons x xs ih =>
    rw [sortByDate, List.foldr_cons]
    exact insertByDate_sorted ih

theorem sortByDate_of_sorted {l : List Rec}
    (h : List.Pairwise (fun a b : Rec => lexLe a.date b.date = true) l) :
    sortByDate l = l := by
  induction l with
  | nil => rfl
  | cons x xs ih =>
    obtain ⟨hx, hxs⟩ := List.pairwise_cons.mp h
    rw [sortByDate, List.foldr_cons]
    rw [show xs.foldr insertByDate [] = sortByDate xs from rfl, ih hxs]
    cases xs with
    | nil => rfl
    | cons y ys =>
      rw [insertByDate, if_pos (hx y (List.mem_cons_self y ys))]

theorem sorted_strict {l : List Rec}
    (h1 : List.Pairwise (fun a b : Rec => lexLe a.date b.date = true) l)
    (h2 : (l.map Rec.date).Nodup) :
    List.Pairwise (fun a b : Rec => lexLt a.date b.date = true) l := by
  have h2' : List.Pairwise (fun a b : Rec => a.date ≠ b.date) l := by
    have := List.pairwise_map.mp h2
    exact this
  exact (h1.and h2').imp (fun hab => lexLt_iff.mpr ⟨hab.1, hab.2⟩)

/-! ### `split('\n')` and `join('\n')` -/

theorem splitNl_cons_eq (c : Char) (t : Str) {h0 : Str} {r : List Str}
    (hs : splitNl t = h0 :: r) :
    splitNl (c :: t) = if c = '\n' then [] :: h0 :: r else (c :: h0) :: r := by
  rw [splitNl, hs]

theorem splitNl_ne_nil (s : Str) : splitNl s ≠ [] := by
  induction s with
  | nil => simp [splitNl]
  | cons c t ih =>
    rcases hs : splitNl t with _ | ⟨h0, r⟩
    · exact absurd hs ih
    · rw [splitNl_cons_eq c t hs]
      split <;> simp

theorem splitNl_no_nl {s : Str} : ∀ l ∈ splitNl s, '\n' ∉ l := by
  induction s with
  | nil =>
    intro l hl
    rw [splitNl, List.mem_singleton] at hl
    subst hl
    simp
  | cons c t ih =>
    intro l hl
    rcases hs : splitNl t with _ | ⟨h0, r⟩
    · exact absurd hs (splitNl_ne_nil t)
    · rw [splitNl_cons_eq c t hs] at hl
      split at hl
      case isTrue hc =>
        rcases List.mem_cons.mp hl with rfl | hl
        · simp
        · exact ih l (hs ▸ hl)
      case isFalse hc =>
        rcases List.mem_cons.mp hl with rfl | hl
        · intro hmem
          rcases List.mem_cons.mp hmem with he | hmem
          · exact hc he.symm
          · exact ih h0 (by rw [hs]; exact List.mem_cons_self _ _) hmem
        · exact ih l (by rw [hs]; exact List.mem_cons_of_mem _ hl)

theorem splitNl_singleton {s : Str} (h : '\n' ∉ s) : splitNl s = [s] := by
  induction s with
  | nil => rfl
  | cons c t ih =>
    rw [splitNl_cons_eq c t (ih (fun hm => h (List.mem_cons_of_mem c hm)))]
    rw [if_neg (fun hc => h (by rw [hc]; exact List.mem_cons_self _ _))]

theorem splitNl_append_cons {x : Str} (t : Str) (hx : '\n' ∉ x) :
    splitNl (x ++ '\n' :: t) = x :: splitNl t := by
  induction x with
  | nil =>
    rcases hs : splitNl t with _ | ⟨h0, r⟩
    · exact absurd hs (splitNl_ne_nil t)
    · rw [List.nil_append, splitNl_cons_eq '\n' t hs, if_pos rfl]
  | cons c x1 ih =>
    have ih2 := ih (fun hm => hx (List.mem_cons_of_mem c hm))
    rcases hs : splitNl t with _ | ⟨h0, r⟩
    · exact absurd hs (splitNl_ne_nil t)
    · rw [hs] at ih2
      rw [List.cons_append, splitNl_cons_eq c _ ih2,
        if_neg (fun hc => hx (by rw [hc]; exact List.mem_cons_self _ _))]

theorem joinNl_cons₂ (a b : Str) (rest : List Str) :
    joinNl (a :: b :: rest) = a ++ '\n' :: joinNl (b :: rest) := by
  rw [joinNl, joinNl]
  simp [List.intercalate]

theorem splitNl_joinNl {lines : List Str} (h1 : lines ≠ [])
    (h2 : ∀ l ∈ lines, '\n' ∉ l) : splitNl (joinNl lines) = lines := by
  induction lines with
  | nil => exact absurd rfl h1
  | cons a rest ih =>
    cases rest with
    | nil =>
      rw [show joinNl [a] = a by simp [joinNl, List.intercalate],
        splitNl_singleton (h2 a (List.mem_cons_self _ _))]
    | cons b rest2 =>
      rw [joinNl_cons₂, splitNl_append_cons _ (h2 a (List.mem_cons_self _ _)),
        ih (by simp) (fun l hl => h2 l (List.mem_cons_of_mem a hl))]

/-! ### No newline occurs in any rendered line -/

theorem natToStr_no_nl (n : ℕ) : '\n' ∉ natToStr n := by
  intro hm
  have := natToStr_isDigit _ hm
  simp [Char.isDigit] at this

theorem toFixed1_no_nl (a : JSN) : '\n' ∉ a.toFixed1 := by
  simp only [JSN.toFixed1]
  split
  · intro hm
    rcases List.mem_cons.mp hm with he | hm
    · cases he
    · rcases List.mem_append.mp hm with hm | hm
      · exact natToStr_no_nl _ hm
      · rcases List.mem_cons.mp hm with he | hm
        · cases he
        · rw [List.mem_singleton] at hm
          have := digitChar_isDigit (Nat.mod_lt _ (by omega) :
            (-(20 * a.num + (a.den : ℤ)).ediv (2 * (a.den : ℤ))).toNat % 10 < 10)
          rw [← hm] at this
          simp [Char.isDigit] at this
  · intro hm
    rcases List.mem_append.mp hm with hm | hm
    · exact natToStr_no_nl _ hm
    · rcases List.mem_cons.mp hm with he | hm
      · cases he
      · rw [List.mem_singleton] at hm
        have := digitChar_isDigit (Nat.mod_lt _ (by omega) :
          ((20 * a.num + (a.den : ℤ)).ediv (2 * (a.den : ℤ))).toNat % 10 < 10)
        rw [← hm] at this
        simp [Char.isDigit] at this

theorem jfix1_no_nl (w : Option JSN) : '\n' ∉ jfix1 w := by
  rcases w with _ | a
  · decide
  · exact toFixed1_no_nl a

theorem tokenOk_no_nl {s : Str} (h : tokenOk s) : '\n' ∉ s := by
  intro hm
  have := h.2 _ hm
  simp [wsp] at this

theorem dateShaped_no_nl {d : Str} (h : dateShaped d) : '\n' ∉ d := by
  intro hm
  rcases dateShaped_chars h _ hm with hdig | he
  · simp [Char.isDigit] at hdig
  · cases he

theorem not_mem_append₂ {α : Type} {a : α} {x y : List α} (hx : a ∉ x) (hy : a ∉ y) :
    a ∉ x ++ y := fun hm => (List.mem_append.mp hm).elim hx hy

theorem not_mem_cons₂ {α : Type} {a c : α} {y : List α} (hc : a ≠ c) (hy : a ∉ y) :
    a ∉ c :: y := fun hm => (List.mem_cons.mp hm).elim hc hy

theorem renderRow_no_nl {r : Rec} (hd : dateShaped r.date) (hin : tokenOk r.inTime)
    (hout : tokenOk r.outTime) (hnote : '\n' ∉ r.note) : '\n' ∉ renderRow r := by
  rw [renderRow_eq]
  refine not_mem_cons₂ (by decide) (not_mem_cons₂ (by decide)
    (not_mem_append₂ (dateShaped_no_nl hd) ?_))
  refine not_mem_cons₂ (by decide) (not_mem_cons₂ (by decide) (not_mem_cons₂ (by decide)
    (not_mem_append₂ (tokenOk_no_nl hin) ?_)))
  refine not_mem_cons₂ (by decide) (not_mem_cons₂ (by decide) (not_mem_cons₂ (by decide)
    (not_mem_append₂ (tokenOk_no_nl hout) ?_)))
  refine not_mem_cons₂ (by decide) (not_mem_cons₂ (by decide) (not_mem_cons₂ (by decide)
    (not_mem_append₂ (jfix1_no_nl r.work) ?_)))
  refine not_mem_cons₂ (by decide) (not_mem_cons₂ (by decide) (not_mem_cons₂ (by decide)
    (not_mem_append₂ (jfix1_no_nl r.ot) ?_)))
  refine not_mem_append₂ ?_ ?_
  · split <;> decide
  · exact not_mem_cons₂ (by decide) (not_mem_cons₂ (by decide) (not_mem_cons₂ (by decide)
      (not_mem_append₂ hnote (by decide))))

theorem summaryLine_no_nl (l : List Rec) : '\n' ∉ summaryLine l := by
  rw [summaryLine]
  intro hm
  rcases List.mem_append.mp hm with hm | hm
  · rcases List.mem_append.mp hm with hm | hm
    · rcases List.mem_append.mp hm with hm | hm
      · rcases List.mem_append.mp hm with hm | hm
        · rcases List.mem_append.mp hm with hm | hm
          · rcases List.mem_append.mp hm with hm | hm
            · rcases List.mem_append.mp hm with hm | hm
              · revert hm
                decide
              · exact natToStr_no_nl _ hm
            · revert hm
              decide
          · exact jfix1_no_nl _ hm
        · revert hm
          decide
      · exact jfix1_no_nl _ hm
    · revert hm
      decide
  · split at hm
    · rcases List.mem_append.mp hm with hm | hm
      · rcases List.mem_append.mp hm with hm | hm
        · revert hm
          decide
        · exact natToStr_no_nl _ hm
      · revert hm
        decide
    · cases hm

/-! ### Non-row lines of the rendered document parse to nothing -/

theorem parseRow_nil : parseRow [] = none := rfl

theorem parseRow_title (month : Str) :
    parseRow ("# ".toList ++ month ++ " 加班记录".toList) = none := rfl

theorem parseRow_header : parseRow headerLine = none := by decide

theorem parseRow_sep : parseRow sepLine = none := by decide

theorem parseRow_dashes : parseRow "---".toList = none := rfl

theorem parseRow_summary (l : List Rec) : parseRow (summaryLine l) = none := rfl

theorem parseStep_none {line : Str} (h : parseRow line = none) (m : List Rec) :
    parseStep m line = m := by
  rw [parseStep, h]

/-! ### Reparsing a rendered row -/

theorem parseRow_renderRow_reparse {r : Rec} (hd : dateShaped r.date)
    (hin : tokenOk r.inTime) (hout : tokenOk r.outTime) (hw : numNN r.work)
    (ho : numNN r.ot) : parseRow (renderRow r) = some (reparseRec r) :=
  parseRow_renderRow r hd hin hout hw ho

theorem recWF_reparse {r : Rec} (h : recWF r) : reparseRec r = r := by
  obtain ⟨_, _, _, hw, ho, hnote, _⟩ := h
  rw [reparseRec, oneDec_parse_jfix1 hw, oneDec_parse_jfix1 ho, hnote]

theorem reparse_dates (l : List Rec) :
    (l.map reparseRec).map Rec.date = l.map Rec.date := by
  rw [List.map_map]
  exact List.map_congr_left (fun x _ => rfl)

theorem date_inj_of_nodup {l : List Rec} (h : (l.map Rec.date).Nodup) :
    ∀ x ∈ l, ∀ y ∈ l, x.date = y.date → x = y :=
  fun x hx y hy he => List.inj_on_of_nodup_map h hx hy he

/-! ### Parsing the rendered document back -/

theorem foldl_parseStep_renderRows (rs : List Rec) :
    ∀ m : List Rec, (∀ r ∈ rs, parseRow (renderRow r) = some (reparseRec r)) →
      ((m ++ rs.map reparseRec).map Rec.date).Nodup →
      List.foldl parseStep m (rs.map renderRow) = m ++ rs.map reparseRec := by
  induction rs with
  | nil =>
    intro m _ _
    simp
  | cons r t ih =>
    intro m h hnd
    have e : (m ++ [reparseRec r]) ++ t.map reparseRec = m ++ (r :: t).map reparseRec := by
      simp
    have hni : ∀ x ∈ m, x.date ≠ (reparseRec r).date := by
      intro x hx he
      rw [List.map_cons, List.map_append, List.map_cons, List.nodup_append] at hnd
      exact hnd.2.2 (List.mem_map_of_mem Rec.date hx)
        (by rw [he]; exact List.mem_cons_self _ _)
    have hstep : parseStep m (renderRow r) = m ++ [reparseRec r] := by
      rw [parseStep, h r (List.mem_cons_self _ _)]
      exact setRec_of_not_mem hni
    rw [List.map_cons, List.foldl_cons, hstep,
      ih (m ++ [reparseRec r]) (fun x hx => h x (List.mem_cons_of_mem _ hx))
        (by rw [e]; exact hnd)]
    exact e

theorem parseRecords_renderLines (month : Str) (rs : List Rec)
    (h : ∀ r ∈ rs, parseRow (renderRow r) = some (reparseRec r))
    (hnd : ((rs.map reparseRec).map Rec.date).Nodup) :
    parseRecords (renderLines month rs) = rs.map reparseRec := by
  rw [parseRecords, renderLines,
    List.foldl_cons, parseStep_none (parseRow_title month),
    List.foldl_cons, parseStep_none parseRow_nil,
    List.foldl_cons, parseStep_none parseRow_header,
    List.foldl_cons, parseStep_none parseRow_sep,
    List.foldl_append,
    foldl_parseStep_renderRows rs [] h (by simpa using hnd),
    List.nil_append,
    List.foldl_cons, parseStep_none parseRow_nil,
    List.foldl_cons, parseStep_none parseRow_dashes,
    List.foldl_cons, parseStep_none parseRow_nil,
    List.foldl_cons, parseStep_none (parseRow_summary rs),
    List.foldl_cons, parseStep_none parseRow_nil,
    List.foldl_nil]

/-! ### The upsert on a reparsed record set -/

theorem setRec_mem_self (m : List Rec) (v : Rec) : v ∈ setRec m v := by
  rw [setRec]
  split
  case isTrue h =>
    rw [List.any_eq_true] at h
    obtain ⟨x, hx, hxe⟩ := h
    rw [List.mem_map]
    exact ⟨x, hx, by rw [if_pos (of_decide_eq_true hxe)]⟩
  case isFalse h => exact List.mem_append_right _ (List.mem_singleton.mpr rfl)

theorem setRec_reparse {m : List Rec} {v : Rec} (hnd : (m.map Rec.date).Nodup)
    (hv : v ∈ m) (ho : ∀ x ∈ m, x.date ≠ v.date → reparseRec x = x) :
    setRec (m.map reparseRec) v = m := by
  rw [setRec, if_pos]
  · rw [List.map_map]
    have hpt : ∀ x ∈ m, ((fun r => if r.date = v.date then v else r) ∘ reparseRec) x
        = id x := by
      intro x hx
      simp only [Function.comp, id]
      rw [show (reparseRec x).date = x.date from rfl]
      by_cases he : x.date = v.date
      · rw [if_pos he]
        exact (date_inj_of_nodup hnd x hx v hv he).symm
      · rw [if_neg he]
        exact ho x hx he
    rw [List.map_congr_left hpt, List.map_id]
  · rw [List.any_eq_true]
    exact ⟨reparseRec v, List.mem_map_of_mem _ hv, decide_eq_true rfl⟩

/-! ### No line of the rendered document contains a newline -/

theorem renderLines_no_nl {month : Str} {rs : List Rec} (hm : '\n' ∉ month)
    (h : ∀ r ∈ rs, dateShaped r.date ∧ tokenOk r.inTime ∧ tokenOk r.outTime ∧ '\n' ∉ r.note) :
    ∀ l ∈ renderLines month rs, '\n' ∉ l := by
  intro l hl
  rw [renderLines] at hl
  rcases List.mem_cons.mp hl with rfl | hl
  · refine not_mem_append₂ (not_mem_append₂ ?_ hm) ?_ <;> decide
  rcases List.mem_cons.mp hl with rfl | hl
  · exact List.not_mem_nil _
  rcases List.mem_cons.mp hl with rfl | hl
  · decide
  rcases List.mem_cons.mp hl with rfl | hl
  · decide
  rcases List.mem_append.mp hl with hl | hl
  · obtain ⟨r, hr, rfl⟩ := List.mem_map.mp hl
    obtain ⟨h1, h2, h3, h4⟩ := h r hr
    exact renderRow_no_nl h1 h2 h3 h4
  rcases List.mem_cons.mp hl with rfl | hl
  · exact List.not_mem_nil _
  rcases List.mem_cons.mp hl with rfl | hl
  · decide
  rcases List.mem_cons.mp hl with rfl | hl
  · exact List.not_mem_nil _
  rcases List.mem_cons.mp hl with rfl | hl
  · exact summaryLine_no_nl rs
  rcases List.mem_cons.mp hl with rfl | hl
  · exact List.not_mem_nil _
  · exact absurd hl (List.not_mem_nil _)

/-- Every record recovered from a stored document is well formed once its two
numbers are known to carry one decimal digit: the shapes come from the row
regex, the absence of newlines from the line split. -/
theorem parsed_recWF {prior : Option Str} {r : Rec}
    (hr : r ∈ parseRecords (priorLines prior)) (h1 : oneDec r.work) (h2 : oneDec r.ot) :
    recWF r := by
  obtain ⟨line, hline, hp⟩ := parseRecords_mem hr
  obtain ⟨hd, hin, hout, htrim, hsub⟩ := parseRow_shapes hp
  refine ⟨hd, hin, hout, h1, h2, htrim, ?_⟩
  intro hmem
  rcases prior with _ | s
  · exact absurd hline (List.not_mem_nil _)
  · exact splitNl_no_nl line hline (hsub _ hmem)

/-! ### The ledger claims -/

/-- C5 (amended): `writeToObsidian` is idempotent on well-formed upsert
arguments — a date-shaped `dateStr`, whitespace-free clock strings,
nonnegative result hours, a newline-free note — provided every
record parsed from the prior document stores nonnegative one-decimal
numbers (the shape the tool itself writes): the second call rewrites a
byte-identical document. -/
theorem writeToObsidian_idem (prior : Option Str) (dateStr clockIn clockOut : Str)
    (result : WtResult)
    (hd : dateShaped dateStr) (hin : tokenOk clockIn) (hout : tokenOk clockOut)
    (hw : 0 ≤ result.workHours) (ho : 0 ≤ result.overtimeHours)
    (hn : '\n' ∉ noteTextOf result.notes)
    (hprior : ∀ r ∈ parseRecords (priorLines prior), oneDec r.work ∧ oneDec r.ot) :
    writeToObsidian (some (writeToObsidian prior dateStr clockIn clockOut result))
        dateStr clockIn clockOut result
      = writeToObsidian prior dateStr clockIn clockOut result := by
  have hwfp : ∀ r ∈ parseRecords (priorLines prior), recWF r := fun r hr =>
    parsed_recWF hr (hprior r hr).1 (hprior r hr).2
  have hperm : List.Perm (mergedSorted prior dateStr clockIn clockOut result)
      (mergedRecs prior dateStr clockIn clockOut result) :=
    sortByDate_perm _
  have hsplit : ∀ r ∈ mergedSorted prior dateStr clockIn clockOut result,
      r ∈ parseRecords (priorLines prior) ∨ r = mkRec dateStr clockIn clockOut result :=
    fun r hr => setRec_mem (hperm.mem_iff.mp hr)
  have hM1nd : ((mergedRecs prior dateStr clockIn clockOut result).map Rec.date).Nodup :=
    setRec_dates_nodup (parseRecords_nodup _)
  have hS1nd : ((mergedSorted prior dateStr clockIn clockOut result).map Rec.date).Nodup :=
    (hperm.map Rec.date).nodup_iff.mpr hM1nd
  have hparse : ∀ r ∈ mergedSorted prior dateStr clockIn clockOut result,
      parseRow (renderRow r) = some (reparseRec r) := by
    intro r hr
    rcases hsplit r hr with hp | rfl
    · rw [parseRow_renderRow_self (hwfp r hp), recWF_reparse (hwfp r hp)]
    · exact parseRow_renderRow_reparse hd hin hout
        (Rat.num_nonneg.mpr hw) (Rat.num_nonneg.mpr ho)
  have hnl : ∀ l ∈ renderLines (dateStr.take 7)
      (mergedSorted prior dateStr clockIn clockOut result), '\n' ∉ l := by
    refine renderLines_no_nl
      (fun hm => dateShaped_no_nl hd (List.take_subset 7 dateStr hm)) ?_
    intro r hr
    rcases hsplit r hr with hp | rfl
    · obtain ⟨h1, h2, h3, _, _, _, h7⟩ := hwfp r hp
      exact ⟨h1, h2, h3, h7⟩
    · exact ⟨hd, hin, hout, hn⟩
  have hdoc : splitNl (writeToObsidian prior dateStr clockIn clockOut result)
      = renderLines (dateStr.take 7) (mergedSorted prior dateStr clockIn clockOut result) := by
    rw [writeToObsidian]
    exact splitNl_joinNl (by rw [renderLines]; exact List.cons_ne_nil _ _) hnl
  have hP2 : parseRecords (priorLines
        (some (writeToObsidian prior dateStr clockIn clockOut result)))
      = (mergedSorted prior dateStr clockIn clockOut result).map reparseRec := by
    show parseRecords (splitNl (writeToObsidian prior dateStr clockIn clockOut result)) = _
    rw [hdoc]
    exact parseRecords_renderLines _ _ hparse (by rw [reparse_dates]; exact hS1nd)
  have hself : setRec ((mergedSorted prior dateStr clockIn clockOut result).map reparseRec)
        (mkRec dateStr clockIn clockOut result)
      = mergedSorted prior dateStr clockIn clockOut result := by
    refine setRec_reparse hS1nd (hperm.mem_iff.mpr (setRec_mem_self _ _)) ?_
    intro x hx hne
    rcases hsplit x hx with hp | rfl
    · exact recWF_reparse (hwfp x hp)
    · exact absurd rfl hne
  have hsorted : sortByDate (mergedSorted prior dateStr clockIn clockOut result)
      = mergedSorted prior dateStr clockIn clockOut result :=
    sortByDate_of_sorted (sortByDate_sorted _)
  have hfinal : mergedSorted (some (writeToObsidian prior dateStr clockIn clockOut result))
        dateStr clockIn clockOut result
      = mergedSorted prior dateStr clockIn clockOut result := by
    rw [mergedSorted, mergedRecs, hP2, hself]
    exact hsorted
  conv_lhs => rw [writeToObsidian]
  conv_rhs => rw [writeToObsidian]
  rw [hfinal]

set_option maxRecDepth 100000 in
/-- C5: witness for the amended idempotence theorem at an absent prior file
and a concrete zero-hours result. -/
theorem writeToObsidian_idem_witness :
    writeToObsidian
        (some (writeToObsidian none "2025-01-02".toList "09:00".toList "18:00".toList
          ⟨0, 0, false, [], []⟩))
        "2025-01-02".toList "09:00".toList "18:00".toList ⟨0, 0, false, [], []⟩
      = writeToObsidian none "2025-01-02".toList "09:00".toList "18:00".toList
          ⟨0, 0, false, [], []⟩ :=
  writeToObsidian_idem none _ _ _ _ (by decide) (by decide) (by decide) (by decide)
    (by decide) (by decide) (by decide)

set_option maxRecDepth 100000 in
/-- C5: the unconditional idempotence claim is false: a prior document whose
row stores `.` in the worked-hours column parses to a `NaN` record, the
first rewrite renders the literal text `NaN`, and the second call's re-parse
drops that row, so the second document differs from the first. -/
theorem writeToObsidian_claim5_cex :
    writeToObsidian
        (some (writeToObsidian (some "| 2025-01-01 | 09:00 | 18:00 | . | 0.0 | x |".toList)
          "2025-01-02".toList "09:00".toList "18:00".toList ⟨0, 0, false, [], []⟩))
        "2025-01-02".toList "09:00".toList "18:00".toList ⟨0, 0, false, [], []⟩
      ≠ writeToObsidian (some "| 2025-01-01 | 09:00 | 18:00 | . | 0.0 | x |".toList)
          "2025-01-02".toList "09:00".toList "18:00".toList ⟨0, 0, false, [], []⟩ := by
  decide

/-- C6: after any upsert, whatever the prior store contents, the sorted
record array that `writeToObsidian` renders as the document's data rows has
strictly ascending dates with no duplicates. -/
theorem writeToObsidian_dates_strictMono (prior : Option Str)
    (dateStr clockIn clockOut : Str) (result : WtResult) :
    List.Pairwise (fun a b : Str => lexLt a b = true)
      ((mergedSorted prior dateStr clockIn clockOut result).map Rec.date) := by
  have hnd : ((mergedRecs prior dateStr clockIn clockOut result).map Rec.date).Nodup :=
    setRec_dates_nodup (parseRecords_nodup _)
  have hnd' : ((mergedSorted prior dateStr clockIn clockOut result).map Rec.date).Nodup :=
    ((sortByDate_perm (mergedRecs prior dateStr clockIn clockOut result)).map
      Rec.date).nodup_iff.mpr hnd
  exact List.pairwise_map.mpr (sorted_strict (sortByDate_sorted _) hnd')

/-- C7 (amended): on records of the shape the tool itself writes — date
shaped, whitespace-free clock tokens, nonnegative one-decimal numbers,
trim-stable newline-free notes — with pairwise distinct dates, re-parsing
the rendered document reproduces the record list exactly. -/
theorem parse_renderLines_roundtrip (month : Str) (rs : List Rec)
    (h : ∀ r ∈ rs, recWF r) (hnd : (rs.map Rec.date).Nodup) :
    parseRecords (renderLines month rs) = rs := by
  have h1 : ∀ r ∈ rs, parseRow (renderRow r) = some (reparseRec r) := by
    intro r hr
    rw [parseRow_renderRow_self (h r hr), recWF_reparse (h r hr)]
  rw [parseRecords_renderLines month rs h1 (by rw [reparse_dates]; exact hnd)]
  calc rs.map reparseRec
      = rs.map id := List.map_congr_left (fun r hr => recWF_reparse (h r hr))
    _ = rs := List.map_id rs

set_option maxRecDepth 100000 in
/-- C7: witness for the amended round-trip theorem at a concrete
one-record ledger. -/
theorem parse_renderLines_roundtrip_witness :
    parseRecords (renderLines "2025-02".toList
        [⟨"2025-02-03".toList, "09:00".toList, "18:30".toList, some ⟨75, 10⟩, some ⟨5, 10⟩,
          "ok".toList⟩])
      = [⟨"2025-02-03".toList, "09:00".toList, "18:30".toList, some ⟨75, 10⟩, some ⟨5, 10⟩,
          "ok".toList⟩] :=
  parse_renderLines_roundtrip _ _ (by decide) (by decide)

set_option maxRecDepth 100000 in
/-- C7: the unconditional round-trip claim is false: a record whose worked
hours carry two decimal digits (6.63) is rendered through `toFixed(1)` as
`6.6`, and the re-parsed record stores a different worked-hours value. -/
theorem roundtrip_claim7_cex :
    parseRecords (renderLines "2025-01".toList
        [⟨"2025-01-05".toList, "09:00".toList, "18:03".toList, some ⟨663, 100⟩, some ⟨0, 10⟩,
          "x".toList⟩])
      = [⟨"2025-01-05".toList, "09:00".toList, "18:03".toList, some ⟨66, 10⟩, some ⟨0, 10⟩,
          "x".toList⟩]
    ∧ JSN.val ⟨66, 10⟩ ≠ JSN.val ⟨663, 100⟩ := by
  constructor
  · decide
  · show ((66 : ℤ) : ℚ) / ((10 : ℕ) : ℚ) ≠ ((663 : ℤ) : ℚ) / ((100 : ℕ) : ℚ)
    norm_num

/-- Dropping the lines the row pattern rejects does not change the parsed
record set: `parseStep` ignores them. -/
theorem parseRecords_filter (lines : List Str) :
    parseRecords (lines.filter (fun l => (parseRow l).isSome)) = parseRecords lines := by
  rw [parseRecords, parseRecords]
  suffices h : ∀ m : List Rec,
      (lines.filter (fun l => (parseRow l).isSome)).foldl parseStep m
        = lines.foldl parseStep m from h []
  induction lines with
  | nil => intro m; rfl
  | cons l t ih =>
    intro m
    rcases hp : parseRow l with _ | r
    · have hcond : (parseRow l).isSome = false := by rw [hp]; rfl
      rw [List.filter_cons, hcond, if_neg (by decide : ¬(false = true)), List.foldl_cons,
        parseStep_none hp]
      exact ih m
    · have hcond : (parseRow l).isSome = true := by rw [hp]; rfl
      rw [List.filter_cons, hcond, if_pos rfl, List.foldl_cons, List.foldl_cons]
      exact ih (parseStep m l)

/-- C8: lines of the prior document that do not match the row pattern are
silently dropped: rewriting from the prior document gives the same document
as rewriting from the prior document with only its parseable row lines
kept, for every prior contents and every upsert. In particular the call
never fails on malformed input. -/
theorem writeToObsidian_drops_malformed (s dateStr clockIn clockOut : Str)
    (result : WtResult) :
    writeToObsidian (some (joinNl ((splitNl s).filter (fun l => (parseRow l).isSome))))
        dateStr clockIn clockOut result
      = writeToObsidian (some s) dateStr clockIn clockOut result := by
  have hrec : parseRecords (priorLines
        (some (joinNl ((splitNl s).filter (fun l => (parseRow l).isSome)))))
      = parseRecords (priorLines (some s)) := by
    show parseRecords (splitNl (joinNl ((splitNl s).filter (fun l => (parseRow l).isSome))))
      = parseRecords (splitNl s)
    by_cases hF : (splitNl s).filter (fun l => (parseRow l).isSome) = []
    · rw [hF, ← parseRecords_filter (splitNl s), hF]
      rfl
    · rw [splitNl_joinNl hF (fun l hl => splitNl_no_nl l (List.mem_filter.mp hl).1),
        parseRecords_filter]
  rw [writeToObsidian, writeToObsidian, mergedSorted, mergedSorted, mergedRecs, mergedRecs,
    hrec]

/-- C9 (amended): the frame property holds for the in-memory record set
recovered from the prior document (where a later duplicate-date row has
already replaced an earlier one): every parsed prior record whose date
differs from the upserted date survives the upsert unchanged, and its
rendered row appears among the rebuilt document's lines. -/
theorem writeToObsidian_frame (prior : Option Str) (dateStr clockIn clockOut : Str)
    (result : WtResult) {r : Rec}
    (hr : r ∈ parseRecords (priorLines prior)) (hne : r.date ≠ dateStr) :
    r ∈ mergedSorted prior dateStr clockIn clockOut result ∧
      renderRow r ∈ renderLines (dateStr.take 7)
        (mergedSorted prior dateStr clockIn clockOut result) := by
  have h1 : r ∈ mergedRecs prior dateStr clockIn clockOut result := setRec_keeps hr hne
  have h2 : r ∈ mergedSorted prior dateStr clockIn clockOut result :=
    (sortByDate_perm _).mem_iff.mpr h1
  refine ⟨h2, ?_⟩
  rw [renderLines]
  exact List.mem_cons_of_mem _ (List.mem_cons_of_mem _ (List.mem_cons_of_mem _
    (List.mem_cons_of_mem _ (List.mem_append_left _ (List.mem_map_of_mem renderRow h2)))))

set_option maxRecDepth 100000 in
/-- C9: witness for the amended frame theorem at a concrete prior document
with one row and an upsert for a different date. -/
theorem writeToObsidian_frame_witness :
    (⟨"2025-03-01".toList, "09:00".toList, "18:00".toList, some ⟨75, 10⟩, some ⟨0, 10⟩,
        "ok".toList⟩ : Rec)
      ∈ mergedSorted (some "| 2025-03-01 | 09:00 | 18:00 | 7.5 | 0.0 | ok |".toList)
          "2025-03-02".toList "09:00".toList "18:00".toList ⟨0, 0, false, [], []⟩ ∧
    renderRow (⟨"2025-03-01".toList, "09:00".toList, "18:00".toList, some ⟨75, 10⟩,
        some ⟨0, 10⟩, "ok".toList⟩ : Rec)
      ∈ renderLines ("2025-03-02".toList.take 7)
          (mergedSorted (some "| 2025-03-01 | 09:00 | 18:00 | 7.5 | 0.0 | ok |".toList)
            "2025-03-02".toList "09:00".toList "18:00".toList ⟨0, 0, false, [], []⟩) :=
  writeToObsidian_frame _ _ _ _ _ (by decide) (by decide)

set_option maxRecDepth 100000 in
/-- C9: the claim quantified over the rows of the existing document is
false: when the prior document holds two well-formed rows with the same
date, the later row overwrites the earlier one during the re-parse, so the
earlier row's values are absent from the record set the rebuilt document is
rendered from — even though its date differs from the upserted date. -/
theorem writeToObsidian_claim9_cex :
    parseRow "| 2025-03-01 | 08:00 | 17:00 | 7.0 | 0.0 | a |".toList
        = some ⟨"2025-03-01".toList, "08:00".toList, "17:00".toList, some ⟨70, 10⟩,
            some ⟨0, 10⟩, "a".toList⟩
      ∧ ∀ r ∈ mergedSorted
            (some ("| 2025-03-01 | 08:00 | 17:00 | 7.0 | 0.0 | a |\n| 2025-03-01 | 09:00 | 18:00 | 7.5 | 0.0 | b |".toList))
            "2025-03-02".toList "09:00".toList "18:00".toList ⟨0, 0, false, [], []⟩,
          r ≠ ⟨"2025-03-01".toList, "08:00".toList, "17:00".toList, some ⟨70, 10⟩,
            some ⟨0, 10⟩, "a".toList⟩ := by
  exact ⟨by decide, by decide⟩

end WorkTracker